import Mathlib

/-!
Verification of the scarlet deblender core (HyperSuprime-Cam/scarlet).

Shallow embedding of `scarlet/transformation.py` and `scarlet/deblender.py`
into Lean 4.  Machine floats are idealised as rationals (`ℚ`); numpy arrays
become dimension fields plus total index functions; fallible numpy calls
(`np.linalg.inv`) become `Except`.
-/

namespace Scarlet

/-- Matrix–vector product of a `size × size` matrix given by its entry
function against a flattened image, as performed by `scipy.sparse`
matrices acting on a flattened image (`L.dot(x)`). -/
def matVec (size : ℕ) (A : ℕ → ℕ → ℚ) (x : ℕ → ℚ) (i : ℕ) : ℚ :=
  ∑ j ∈ Finset.range size, A i j * x j

/-! ## `transformation.getZeroOp` (claim C5)

`getZeroOp(shape)` builds `scipy.sparse.eye(size, k=size)`: ones on the
diagonal offset by `k = size`, which lies entirely outside a
`size × size` matrix, hence the all-zero matrix; the adapter's cached
spectral norm is explicitly set to `0`. -/

namespace ZeroOp

/-- Entry `(i, j)` of `scipy.sparse.eye(size, k=size)`: `1` iff
`j = i + size`, which never holds inside the `size × size` bounds. -/
def zeroOpEntry (size i j : ℕ) : ℚ := if j = i + size then 1 else 0

/-- `L._spec_norm = 0` as assigned in `getZeroOp`. -/
def zeroOpSpecNorm : ℚ := 0

/-- Applying the zero operator to a flattened image. -/
def zeroOpApply (h w : ℕ) (x : ℕ → ℚ) (i : ℕ) : ℚ :=
  matVec (h * w) (zeroOpEntry (h * w)) x i

end ZeroOp

/-! ## `transformation.getSymmetryOp` (claim C7)

`getSymmetryOp(shape)` builds `I - P` where `P` is the permutation
sending flattened index `i` to `size - 1 - i` (`sidx = idx[::-1]`). -/

namespace Symmetry

/-- Entry of `scipy.sparse.identity(size)` (from `getIdentityOp`). -/
def identityEntry (i j : ℕ) : ℚ := if i = j then 1 else 0

/-- Entry of the symmetry operator `I - coo_matrix(ones, (idx, idx[::-1]))`:
row `i` has a `1` at column `i` and a `-1` at column `size - 1 - i`. -/
def symmetryEntry (size i j : ℕ) : ℚ :=
  identityEntry i j - (if j = size - 1 - i then 1 else 0)

/-- The symmetry operator applied to a flattened image of shape `(h, w)`. -/
def symmetryApply (h w : ℕ) (x : ℕ → ℚ) (i : ℕ) : ℚ :=
  matVec (h * w) (symmetryEntry (h * w)) x i

/-- An image is point symmetric under 180° rotation about the image
center when the flattened pixel `i` equals pixel `size - 1 - i`. -/
def PointSymmetric (size : ℕ) (x : ℕ → ℚ) : Prop :=
  ∀ i < size, x i = x (size - 1 - i)

end Symmetry

/-! ### Theorems -/

/-- A sum of `if j = k then 1 else 0 * x j` picks out `x k`. -/
lemma sum_single_pick (size k : ℕ) (hk : k < size) (x : ℕ → ℚ) :
    ∑ j ∈ Finset.range size, (if j = k then (1 : ℚ) else 0) * x j = x k := by
  rw [Finset.sum_eq_single k]
  · simp
  · intro b _ hb; simp [hb]
  · intro h; exact absurd (Finset.mem_range.mpr hk) h

lemma zeroOp_apply_eq_zero (h w : ℕ) (x : ℕ → ℚ) (i : ℕ) :
    ZeroOp.zeroOpApply h w x i = 0 := by
  unfold ZeroOp.zeroOpApply matVec ZeroOp.zeroOpEntry
  apply Finset.sum_eq_zero
  intro j hj
  have hjlt : j < h * w := Finset.mem_range.mp hj
  have : j ≠ i + h * w := by omega
  simp [this]

/-- C5 counterexample: on shape `(1,1)` the "null" operator sends the
flattened image `[1]` to `0`, not back to itself, so it is not a no-op
in the sense of returning `x` unchanged. -/
theorem c5_counterexample :
    ZeroOp.zeroOpApply 1 1 (fun _ => (1 : ℚ)) 0 ≠ (fun _ => (1 : ℚ)) 0 := by
  rw [zeroOp_apply_eq_zero]
  norm_num

/-- C5 (amended): for every shape, the null operator of `getZeroOp`
reports spectral norm 0 and annihilates every flattened image: applying
it to any `x` yields the zero vector (rather than returning `x`). -/
theorem c5_zero_op_annihilates (h w : ℕ) (x : ℕ → ℚ) (i : ℕ) :
    ZeroOp.zeroOpApply h w x i = 0 ∧ ZeroOp.zeroOpSpecNorm = 0 :=
  ⟨zeroOp_apply_eq_zero h w x i, rfl⟩

lemma symmetry_apply_eq (h w : ℕ) (x : ℕ → ℚ) (i : ℕ) (hi : i < h * w) :
    Symmetry.symmetryApply h w x i = x i - x (h * w - 1 - i) := by
  unfold Symmetry.symmetryApply matVec Symmetry.symmetryEntry Symmetry.identityEntry
  have hmirror : h * w - 1 - i < h * w := by omega
  calc ∑ j ∈ Finset.range (h * w),
        ((if i = j then (1:ℚ) else 0) - (if j = h * w - 1 - i then 1 else 0)) * x j
      = ∑ j ∈ Finset.range (h * w),
        ((if j = i then (1:ℚ) else 0) * x j - (if j = h * w - 1 - i then 1 else 0) * x j) := by
        apply Finset.sum_congr rfl
        intro j _
        rw [sub_mul]
        congr 2
        simp [eq_comm]
    _ = x i - x (h * w - 1 - i) := by
        rw [Finset.sum_sub_distrib, sum_single_pick _ _ hi, sum_single_pick _ _ hmirror]

/-- C7: for every shape, the symmetry operator applied to a flattened
image is the zero vector iff the image is point symmetric under
`i ↦ size - 1 - i` (180° rotation about the image center); equivalently,
on every non-point-symmetric image the result is nonzero. -/
theorem c7_symmetry_op_kernel (h w : ℕ) (x : ℕ → ℚ) :
    (∀ i < h * w, Symmetry.symmetryApply h w x i = 0) ↔
      Symmetry.PointSymmetric (h * w) x := by
  constructor
  · intro hz i hi
    have := hz i hi
    rw [symmetry_apply_eq h w x i hi] at this
    linarith
  · intro hs i hi
    rw [symmetry_apply_eq h w x i hi, hs i hi]
    ring

/-! ## `transformation.LinearFilter` (claim C10)

`LinearFilter.__init__(values, coords)` flattens `values` and `coords`,
pairs them up, and removes the pairs whose value is zero.  `f.T`
rebuilds a `LinearFilter` from `f._flat_values` and the negated
`f._flat_coords`.  `f.dot(X)` applies the filter to an image through the
C++ extension `operators_pybind11.apply_filter`, which is absent from
the sources. -/

namespace Filter

/-- State of a constructed `LinearFilter`: the retained flat values and
their relative coordinates `(dy, dx)`. -/
structure LinearFilter where
  flat_values : List ℚ
  flat_coords : List (ℤ × ℤ)

/-- `LinearFilter.__init__` with `coords` given: pair values with
coordinates and drop zero-valued weights. -/
def build (values : List ℚ) (coords : List (ℤ × ℤ)) : LinearFilter :=
  let pairs := (values.zip coords).filter (fun p => p.1 ≠ 0)
  ⟨pairs.map Prod.fst, pairs.map Prod.snd⟩

/-- `LinearFilter.T`: rebuild from the stored values and the negated
stored coordinates. -/
def transposeF (f : LinearFilter) : LinearFilter :=
  build f.flat_values (f.flat_coords.map (fun c => (-c.1, -c.2)))

/-- Modelled from the spec: `apply_filter` lives in the missing
`operators_pybind11` C++ extension; per the spec a `LinearFilter`
"acts like a sparse diagonal matrix that applies an image of weights"
at the stored relative coordinates, so the output pixel `(y, x)` is the
weighted sum of the input pixels at the relative offsets. -/
def LinearFilter.dot (f : LinearFilter) (X : ℤ → ℤ → ℚ) (y x : ℤ) : ℚ :=
  ((f.flat_values.zip f.flat_coords).map
    (fun vc => vc.1 * X (y + vc.2.1) (x + vc.2.2))).sum

lemma build_values_nonzero (values : List ℚ) (coords : List (ℤ × ℤ)) :
    ∀ v ∈ (build values coords).flat_values, v ≠ 0 := by
  intro v hv
  simp only [build, List.mem_map] at hv
  obtain ⟨p, hp, rfl⟩ := hv
  simpa using (List.mem_filter.mp hp).2

/-- Building from lists of equal length whose values are all nonzero
keeps every pair: the zero-removal filter is a no-op. -/
lemma build_keep (vs : List ℚ) (cs : List (ℤ × ℤ))
    (hnz : ∀ v ∈ vs, v ≠ 0) (hlen : vs.length = cs.length) :
    build vs cs = ⟨vs, cs⟩ := by
  have hfilter : (vs.zip cs).filter (fun p => decide (p.1 ≠ 0)) = vs.zip cs := by
    apply List.filter_eq_self.mpr
    intro p hp
    exact decide_eq_true (hnz p.1 (List.of_mem_zip hp).1)
  simp only [build]
  rw [hfilter, List.map_fst_zip _ _ (le_of_eq hlen),
    List.map_snd_zip _ _ (ge_of_eq hlen)]

lemma build_length_eq (values : List ℚ) (coords : List (ℤ × ℤ)) :
    (build values coords).flat_values.length =
      (build values coords).flat_coords.length := by
  simp [build]

/-- `f.T.T = f` for any constructed filter: negating the relative
coordinates twice restores them, and the zero-removal step retains
everything because the stored values are already nonzero. -/
lemma transposeF_transposeF (values : List ℚ) (coords : List (ℤ × ℤ)) :
    transposeF (transposeF (build values coords)) = build values coords := by
  set f := build values coords with hf
  have hnz : ∀ v ∈ f.flat_values, v ≠ 0 := build_values_nonzero values coords
  have hlen : f.flat_values.length = f.flat_coords.length :=
    build_length_eq values coords
  have h1 : transposeF f = ⟨f.flat_values, f.flat_coords.map (fun c => (-c.1, -c.2))⟩ :=
    build_keep _ _ hnz (by simpa using hlen)
  rw [transposeF, h1]
  show build f.flat_values
      ((f.flat_coords.map (fun c => (-c.1, -c.2))).map (fun c => (-c.1, -c.2))) = f
  have hcoords : (f.flat_coords.map (fun c => (-c.1, -c.2))).map
      (fun c : ℤ × ℤ => (-c.1, -c.2)) = f.flat_coords := by
    rw [List.map_map]
    have : ((fun c : ℤ × ℤ => (-c.1, -c.2)) ∘ fun c : ℤ × ℤ => (-c.1, -c.2)) = id := by
      funext c; simp
    rw [this, List.map_id]
  rw [hcoords]
  exact build_keep _ _ hnz hlen

end Filter

/-- C10: for every `LinearFilter` built from values and relative
coordinates, the double transpose `f.T.T` applied to any 2D image at
any pixel gives the same result as `f` itself: transposition is an
involution (the zero-valued weights having been removed at
construction). -/
theorem c10_filter_double_transpose (values : List ℚ) (coords : List (ℤ × ℤ))
    (X : ℤ → ℤ → ℚ) (y x : ℤ) :
    Filter.LinearFilter.dot
        (Filter.transposeF (Filter.transposeF (Filter.build values coords))) X y x =
      Filter.LinearFilter.dot (Filter.build values coords) X y x := by
  rw [Filter.transposeF_transposeF]

/-! ## `deblender.Source` / `deblender.Blend`

Embedding of `scarlet/deblender.py`.  numpy arrays are a shape plus a
total index function; `None`-able attributes are `Option`s.  The
`transformations.GammaOp` module referenced by `deblender.py` is not
among the sources (only `transformation.py`, which has no `GammaOp`),
so per the spec the Gamma operator (sub-pixel translation + PSF
convolution, a linear operator on the flattened morphology) is passed
in as an abstract parameter `gammaOp dy dx`. -/

namespace Deb

/-- A 2-D numpy array: its shape and entries. -/
structure NpArray2 where
  rows : ℕ
  cols : ℕ
  val : ℕ → ℕ → ℚ

/-- A 3-D numpy array (bands × height × width). -/
structure Img3 where
  B : ℕ
  H : ℕ
  W : ℕ
  val : ℕ → ℕ → ℕ → ℚ

/-- `Source` state.  `sed`/`morph` are `None` until supplied or
initialised (`np.copy(None)` yields a 0-d array whose `shape[0]`
raises `IndexError`, which the `K`/`B` fallbacks below rely on). -/
structure Source where
  sed : Option NpArray2
  morph : Option NpArray2
  y : ℚ
  x : ℚ
  left : ℤ
  right : ℤ
  bottom : ℤ
  top : ℤ
  shiftCenter : ℚ
  Gamma : ℕ → ℕ → ℚ
  hasPsf : Bool
  hasM : Bool

/-- `Source.__len__` / `Source.K`: `sed.shape[0]`, falling back to
`morph.shape[0]`, falling back to 1. -/
def Source.K (s : Source) : ℕ :=
  match s.sed with
  | some a => a.rows
  | none =>
    match s.morph with
    | some a => a.rows
    | none => 1

/-- `Source.B`: `sed.shape[1]`, falling back to 0. -/
def Source.B (s : Source) : ℕ :=
  match s.sed with
  | some a => a.cols
  | none => 0

def Source.Nx (s : Source) : ℕ := (s.right - s.left).toNat

def Source.Ny (s : Source) : ℕ := (s.top - s.bottom).toNat

/-- `Source.center_int`: `(floor(y), floor(x))`. -/
def Source.center_int (s : Source) : ℤ × ℤ := (⌊s.y⌋, ⌊s.x⌋)

/-- `Source.set_center(center, size)`: recompute the integer box from
the rounded centroid (`size[0]//2` on the x side, `size[1]//2` on the y
side, exactly as in the source) and rebuild Gamma for the residual
fractional offset. -/
def Source.set_center (gammaOp : ℚ → ℚ → ℕ → ℕ → ℚ) (s : Source)
    (center : ℚ × ℚ) (size : Option (ℕ × ℕ)) : Source :=
  let sz := size.getD (s.Ny, s.Nx)
  let y_ : ℤ := ⌊center.1⌋
  let x_ : ℤ := ⌊center.2⌋
  { s with
    y := center.1, x := center.2,
    left := x_ - (sz.1 / 2 : ℕ), right := x_ + (sz.1 / 2 : ℕ) + 1,
    bottom := y_ - (sz.2 / 2 : ℕ), top := y_ + (sz.2 / 2 : ℕ) + 1,
    Gamma := gammaOp (center.1 - y_) (center.2 - x_) }

def Source.sedVal (s : Source) (k b : ℕ) : ℚ :=
  match s.sed with
  | some a => a.val k b
  | none => 0

def Source.morphRow (s : Source) (k : ℕ) : ℕ → ℚ := fun j =>
  match s.morph with
  | some a => a.val k j
  | none => 0

/-- One component of `Source.get_model` with a single Gamma matrix
(the `hasattr(Gamma, 'shape')` branch): the outer product
`sed[k] ⊗ (Gamma · morph[k])`, reshaped to `(B, Ny, Nx)`. -/
def Source.modelComponent (s : Source) (Gamma : ℕ → ℕ → ℚ) (k b r c : ℕ) : ℚ :=
  s.sedVal k b * matVec (s.Ny * s.Nx) Gamma (s.morphRow k) (r * s.Nx + c)

/-- `Source.get_model(combine=True)`: sum of the component models. -/
def Source.get_model (s : Source) (Gamma : ℕ → ℕ → ℚ) (b r c : ℕ) : ℚ :=
  ∑ k ∈ Finset.range s.K, s.modelComponent Gamma k b r c

/-! ### proxmin projections used by `init_source`

`proxmin.operators` is an external dependency (the proxmin package):
`prox_plus` clips negative entries to zero and `prox_unity_plus`
composes it with division by the entry sum.  Note `ℚ` division by zero
yields 0 where numpy yields NaN; in both arithmetics a zero-sum input
produces a row that does not sum to 1. -/

def prox_plus (v : ℕ → ℚ) : ℕ → ℚ := fun b => max (v b) 0

def prox_unity (B : ℕ) (v : ℕ → ℚ) : ℕ → ℚ :=
  fun b => v b / ∑ j ∈ Finset.range B, v j

def prox_unity_plus (B : ℕ) (v : ℕ → ℚ) : ℕ → ℚ :=
  prox_unity B (prox_plus v)

/-- Modelled from the spec: `operators.prox_strict_monotonic` lives in
`scarlet/operators.py`, which is not among the sources.  Per §4.2 it is
"a direct 'strict monotonic' projection that iteratively clips each
pixel to the minimum of its valid closer-neighbor values ordered by
distance-to-peak"; we clip each non-peak pixel, in order of increasing
distance from the central peak, to its toward-peak neighbor's value
less the gradient threshold. -/
def specProxStrictMonotonic (Ny Nx : ℕ) (thresh : ℚ) (X : ℕ → ℚ) : ℕ → ℚ :=
  let px := Nx / 2
  let py := Ny / 2
  let ref : ℕ → ℕ := fun i =>
    let xi := i % Nx
    let yi := i / Nx
    let xj := if px < xi then xi - 1 else if xi < px then xi + 1 else xi
    let yj := if py < yi then yi - 1 else if yi < py then yi + 1 else yi
    yj * Nx + xj
  let dSq : ℕ → ℕ := fun i =>
    ((i % Nx : ℤ) - px).natAbs ^ 2 + ((i / Nx : ℤ) - py).natAbs ^ 2
  let order := (List.range (Ny * Nx)).mergeSort (fun a b => dSq a ≤ dSq b)
  order.foldl
    (fun f i => fun j =>
      if j = i ∧ i ≠ py * Nx + px then min (f i) (f (ref i) - thresh) else f j)
    X

/-- Start of the bounding-box rows inside the source frame:
`max(0, -bottom)` from `get_slice_for`. -/
def Source.srcRowLo (s : Source) : ℕ := (max 0 (-s.bottom)).toNat

def Source.srcColLo (s : Source) : ℕ := (max 0 (-s.left)).toNat

/-- End of the bounding-box rows inside the source frame:
`Ny - max(0, top - NY)` from `get_slice_for`. -/
def Source.srcRowHi (s : Source) (H : ℕ) : ℕ := s.Ny - (max 0 (s.top - H)).toNat

def Source.srcColHi (s : Source) (W : ℕ) : ℕ := s.Nx - (max 0 (s.right - W)).toNat

/-- `Source.init_source(img)`: SED row 0 from the per-band pixel values
at the rounded centroid through `prox_unity_plus`; morphology row 0
from the monotonized band-sum of the bounding-box cutout (no-PSF case)
or a single central pixel with the total flux (PSF case). -/
def Source.init_source (s : Source) (img : Img3) : Source :=
  let B := img.B
  let y_ := s.center_int.1
  let x_ := s.center_int.2
  let sedRaw : ℕ → ℚ := fun b => img.val b y_.toNat x_.toNat
  let sed0 := prox_unity_plus B sedRaw
  let sed' : NpArray2 := ⟨1, B, fun _ b => sed0 b⟩
  if s.hasPsf = false then
    -- morph = zeros(1, Ny, Nx); morph[0][slice] = img[bb].sum(axis=0)
    let cut : ℕ → ℚ := fun j =>
      let r := j / s.Nx
      let c := j % s.Nx
      if s.srcRowLo ≤ r ∧ r < s.srcRowHi img.H ∧ s.srcColLo ≤ c ∧ c < s.srcColHi img.W
      then ∑ b ∈ Finset.range B, img.val b ((r : ℤ) + s.bottom).toNat ((c : ℤ) + s.left).toNat
      else 0
    -- thresh = 0 for the predefined "m" operator, else 1/min(shape)
    let thresh : ℚ := if s.hasM then 0 else 1 / (min s.Ny s.Nx : ℚ)
    let morph0 := specProxStrictMonotonic s.Ny s.Nx thresh cut
    { s with sed := some sed', morph := some ⟨1, s.Ny * s.Nx, fun _ j => morph0 j⟩ }
  else
    -- single central pixel holding the total flux (+ tiny)
    let tiny : ℚ := 1 / 10 ^ 10
    let cx := s.Nx / 2
    let cy := s.Ny / 2
    { s with
      sed := some sed',
      morph := some ⟨1, s.Ny * s.Nx, fun _ j =>
        if j = cy * s.Nx + cx
        then (∑ b ∈ Finset.range B, img.val b y_.toNat x_.toNat) + tiny
        else 0⟩ }

/-- Both branches of `init_source` store the same SED: row 0 is the
pixel SED at the rounded centroid through `prox_unity_plus`. -/
lemma init_source_sed (s : Source) (img : Img3) :
    (s.init_source img).sed =
      some ⟨1, img.B, fun _ b =>
        prox_unity_plus img.B
          (fun b' => img.val b' s.center_int.1.toNat s.center_int.2.toNat) b⟩ := by
  unfold Source.init_source
  by_cases h : s.hasPsf = false <;> simp [h]

/-- `sedVal` of an initialised source is the projected centroid SED. -/
lemma init_source_sedVal (s : Source) (img : Img3) (k b : ℕ) :
    (s.init_source img).sedVal k b =
      prox_unity_plus img.B
        (fun b' => img.val b' s.center_int.1.toNat s.center_int.2.toNat) b := by
  unfold Source.sedVal
  rw [init_source_sed]

lemma prox_unity_plus_nonneg (B : ℕ) (v : ℕ → ℚ) (b : ℕ) :
    0 ≤ prox_unity_plus B v b := by
  unfold prox_unity_plus prox_unity prox_plus
  apply div_nonneg (le_max_right _ _)
  exact Finset.sum_nonneg fun j _ => le_max_right _ _

lemma prox_unity_plus_sum (B : ℕ) (v : ℕ → ℚ) (hnn : ∀ b < B, 0 ≤ v b)
    (hpos : 0 < ∑ b ∈ Finset.range B, v b) :
    ∑ b ∈ Finset.range B, prox_unity_plus B v b = 1 := by
  unfold prox_unity_plus prox_unity prox_plus
  have hmax : ∀ b ∈ Finset.range B, max (v b) 0 = v b := fun b hb =>
    max_eq_left (hnn b (Finset.mem_range.mp hb))
  rw [Finset.sum_congr rfl fun b hb => by rw [Finset.sum_congr rfl hmax]]
  rw [← Finset.sum_div, Finset.sum_congr rfl hmax]
  exact div_self (ne_of_gt hpos)

end Deb

/-- C3 counterexample: for the all-zero (hence non-negative) one-band
image, the SED row written by `init_source` does not sum to 1: the
unity projection divides by a zero sum (NaN in numpy, 0 in `ℚ`). -/
theorem c3_counterexample :
    (∀ b yy xx, 0 ≤ (Deb.Img3.mk 1 1 1 fun _ _ _ => 0).val b yy xx) ∧
      ∑ b ∈ Finset.range 1,
        ((Deb.Source.mk none none 0 0 0 1 0 1 0 (fun _ _ => 0) false false).init_source
          (Deb.Img3.mk 1 1 1 fun _ _ _ => 0)).sedVal 0 b ≠ 1 := by
  constructor
  · intro b yy xx; exact le_refl 0
  · rw [Finset.sum_congr rfl fun b _ => Deb.init_source_sedVal _ _ _ b]
    simp [Deb.prox_unity_plus, Deb.prox_unity, Deb.prox_plus]

/-- C3 (amended): for every non-negative input image whose per-band
values at the integer-rounded centroid do not all vanish, the SED row
written by `init_source` is non-negative and sums to 1. -/
theorem c3_sed_row_unit_sum (s : Deb.Source) (img : Deb.Img3)
    (hnn : ∀ b < img.B, 0 ≤ img.val b s.center_int.1.toNat s.center_int.2.toNat)
    (hpos : 0 < ∑ b ∈ Finset.range img.B,
      img.val b s.center_int.1.toNat s.center_int.2.toNat) :
    (∀ b, 0 ≤ (s.init_source img).sedVal 0 b) ∧
      ∑ b ∈ Finset.range img.B, (s.init_source img).sedVal 0 b = 1 := by
  constructor
  · intro b
    rw [Deb.init_source_sedVal]
    exact Deb.prox_unity_plus_nonneg _ _ _
  · rw [Finset.sum_congr rfl fun b _ => Deb.init_source_sedVal s img 0 b]
    exact Deb.prox_unity_plus_sum _ _ hnn hpos

/-- C3 witness: a concrete positive one-band image at the centroid
pixel satisfies the hypotheses and yields a unit-sum SED row. -/
theorem c3_sed_row_unit_sum_witness :
    0 < ∑ b ∈ Finset.range 1,
        (Deb.Img3.mk 1 1 1 fun _ _ _ => 2).val b 0 0 ∧
      ∑ b ∈ Finset.range 1,
        ((Deb.Source.mk none none 0 0 0 1 0 1 0 (fun _ _ => 0) false false).init_source
          (Deb.Img3.mk 1 1 1 fun _ _ _ => 2)).sedVal 0 b = 1 := by
  refine ⟨by norm_num, ?_⟩
  exact (c3_sed_row_unit_sum
    (Deb.Source.mk none none 0 0 0 1 0 1 0 (fun _ _ => 0) false false)
    (Deb.Img3.mk 1 1 1 fun _ _ _ => 2)
    (fun b _ => by norm_num) (by norm_num)).2

/-- C6 counterexample: a source constructed with a 2-component SED and
morphology (`K = 2`); after `init_source` both are replaced by
single-row arrays, so `K` drops to 1. -/
theorem c6_counterexample :
    (Deb.Source.mk (some ⟨2, 1, fun _ _ => 1⟩) (some ⟨2, 1, fun _ _ => 1⟩)
        0 0 0 1 0 1 0 (fun _ _ => 0) false false).K = 2 ∧
      ((Deb.Source.mk (some ⟨2, 1, fun _ _ => 1⟩) (some ⟨2, 1, fun _ _ => 1⟩)
        0 0 0 1 0 1 0 (fun _ _ => 0) false false).init_source
          (Deb.Img3.mk 1 1 1 fun _ _ _ => 0)).K = 1 := by
  constructor
  · rfl
  · unfold Deb.Source.K
    rw [Deb.init_source_sed]

/-- C6 (amended): `K` is the row count of the stored SED (or morphology)
array, so the matrices have exactly `K` rows at all times; but
`init_source` overwrites both with single-row arrays, so after
`init_source` runs `K = 1` for every source, whatever its
construction-time component count was. -/
theorem c6_init_resets_K (s : Deb.Source) (img : Deb.Img3) :
    (s.init_source img).K = 1 := by
  unfold Deb.Source.K
  rw [Deb.init_source_sed]

/-! ## `Blend._set_weights` and `Blend.set_data` (claims C2, C4) -/

namespace Deb

/-- numpy median: middle element of the sorted values, or the average
of the two middle elements for even length. -/
def median (l : List ℚ) : ℚ :=
  let s := l.mergeSort (fun a b => a ≤ b)
  let n := l.length
  if n = 0 then 0
  else if n % 2 = 1 then s.getD (n / 2) 0
  else (s.getD (n / 2 - 1) 0 + s.getD (n / 2) 0) / 2

/-- `norm_pixel = np.median(weights, axis=0)` at one pixel. -/
def normPixel (w : Img3) (yy xx : ℕ) : ℚ :=
  median ((List.range w.B).map fun b => w.val b yy xx)

/-- `norm_band = np.median(weights, axis=(1,2))` for one band
(row-major flattening). -/
def normBand (w : Img3) (b : ℕ) : ℚ :=
  median ((List.range (w.H * w.W)).map fun p => w.val b (p / w.W) (p % w.W))

/-- `self._weights[2]` (morphology update): per-pixel normalisation by
the band median wherever that median is positive. -/
def weightsS (w : Img3) : Img3 :=
  ⟨w.B, w.H, w.W, fun b yy xx =>
    if 0 < normPixel w yy xx then w.val b yy xx / normPixel w yy xx
    else w.val b yy xx⟩

/-- `self._weights[1]` (SED update): per-band normalisation by the
pixel median where positive, then `mask = ~np.all(weights > 0, axis=0)`
and `self._weights[1][:, mask] = 0`: every band of any pixel that is
not strictly positive in all bands is zeroed. -/
def weightsA (w : Img3) : Img3 :=
  ⟨w.B, w.H, w.W, fun b yy xx =>
    if ∀ b' < w.B, 0 < w.val b' yy xx then
      (if 0 < normBand w b then w.val b yy xx / normBand w b
       else w.val b yy xx)
    else 0⟩

/-- `self._weights = [W, WA, WS]`; `None` stands for the flat scalar
weights `[1, 1, 1]` of the `weights is None` branch. -/
structure WTriple where
  W : Option Img3
  WA : Option Img3
  WS : Option Img3

/-- `Blend._set_weights`. -/
def set_weights (weights : Option Img3) : WTriple :=
  match weights with
  | none => ⟨none, none, none⟩
  | some w => ⟨some w, some (weightsA w), some (weightsS w)⟩

/-- `Blend` state: the shared source list, the iteration counters, the
bound image `self._img`, the attribute literally named `_` that the
`sky is None` branch of `set_data` writes to, the update order and the
derived weights.  The proxmin `Steps_AS` step-size state initialised
from the maxima of the derived weights is external and unused by every
claim below. -/
structure Blend where
  sources : List Source
  it : ℤ
  model_it : ℤ
  img : Option Img3
  underscoreAttr : Option Img3
  update_order : List ℕ
  weights : WTriple

/-- `Blend.init_sources`: run `init_source` on every source against the
bound image (`init_source` ignores its `weights` argument). -/
def Blend.init_sources (bl : Blend) (im : Img3) : Blend :=
  { bl with sources := bl.sources.map fun s => s.init_source im }

/-- `Blend.set_data`.  The source reads

    if sky is None:
        self._ = img
    else:
        self._img = img-sky

so with `sky = None` the image lands in the attribute `_` and
`self._img` stays unbound; a subsequent `init_sources` (or any later
step) then raises `AttributeError`, modelled as `Except.error`. -/
def Blend.set_data (bl : Blend) (img : Img3) (weights : Option Img3)
    (sky : Option Img3) (initFlag : Bool) (update_order : Option (List ℕ)) :
    Except String Blend :=
  let bl1 := { bl with it := 0, model_it := -1 }
  let bl2 :=
    match sky with
    | none => { bl1 with underscoreAttr := some img }
    | some sk =>
      { bl1 with img := some ⟨img.B, img.H, img.W,
          fun b yy xx => img.val b yy xx - sk.val b yy xx⟩ }
  let bl3 :=
    { bl2 with
      update_order := update_order.getD [1, 0]
      weights := set_weights weights }
  if initFlag then
    match bl3.img with
    | some im => Except.ok (bl3.init_sources im)
    | none => Except.error "AttributeError"
  else Except.ok bl3

end Deb

/-- Shared concrete instances for the concrete theorems below. -/
def exSource : Deb.Source :=
  ⟨none, none, 0, 0, 0, 1, 0, 1, 0, fun _ _ => 0, false, false⟩

def exImg2 : Deb.Img3 := ⟨1, 1, 1, fun _ _ _ => 2⟩

def exBlend : Deb.Blend := ⟨[exSource], 5, 3, none, none, [], ⟨none, none, none⟩⟩

/-- C2 (code bug): on a fresh `Blend`, `set_data(img, sky=None)` resets
the iteration counter to 0 but does *not* bind the image: `self._img`
stays `None` (the image goes to the attribute `_`), and asking
`set_data` to initialise the sources fails with `AttributeError`. -/
theorem c2_set_data_sky_none_typo :
    (exBlend.set_data exImg2 none none false none).map Deb.Blend.it =
        Except.ok 0 ∧
      (exBlend.set_data exImg2 none none false none).map Deb.Blend.img =
        Except.ok none ∧
      (exBlend.set_data exImg2 none none false none).map Deb.Blend.underscoreAttr =
        Except.ok (some exImg2) ∧
      exBlend.set_data exImg2 none none true none =
        Except.error "AttributeError" :=
  ⟨rfl, rfl, rfl, rfl⟩

/-- C4 counterexample: a one-pixel, two-band weight array with band
weights `(0, 1)`: the pixel has zero weight in some but not all bands,
yet the derived SED-update weight of the positive band is zeroed. -/
theorem c4_counterexample :
    (Deb.Img3.mk 2 1 1 fun b _ _ => if b = 0 then 0 else 1).val 0 0 0 = 0 ∧
      (0:ℚ) < (Deb.Img3.mk 2 1 1 fun b _ _ => if b = 0 then 0 else 1).val 1 0 0 ∧
      (Deb.weightsA (Deb.Img3.mk 2 1 1 fun b _ _ => if b = 0 then 0 else 1)).val 1 0 0
        = 0 := by
  refine ⟨rfl, by norm_num, ?_⟩
  have h : ¬ ∀ b' < (2:ℕ), (0:ℚ) <
      (Deb.Img3.mk 2 1 1 fun b _ _ => if b = 0 then 0 else 1).val b' 0 0 := by
    intro h
    have := h 0 (by norm_num)
    norm_num at this
  simp [Deb.weightsA, h]

/-- C4 (amended): for every non-negative weights array, the derived
SED-update weighting zeroes exactly those pixels that have zero weight
in *at least one* band; a pixel with positive weight in every band
keeps its per-band-median-normalised (positive) weight. -/
theorem c4_sed_weight_masking (w : Deb.Img3) (b yy xx : ℕ) (hb : b < w.B)
    (hnn : ∀ b' < w.B, 0 ≤ w.val b' yy xx) :
    ((Deb.weightsA w).val b yy xx = 0 ↔ ∃ b' < w.B, w.val b' yy xx = 0) ∧
      ((∀ b' < w.B, 0 < w.val b' yy xx) →
        (Deb.weightsA w).val b yy xx =
            (if 0 < Deb.normBand w b then w.val b yy xx / Deb.normBand w b
             else w.val b yy xx) ∧
          0 < (Deb.weightsA w).val b yy xx) := by
  by_cases h : ∀ b' < w.B, 0 < w.val b' yy xx
  · have hval : (Deb.weightsA w).val b yy xx =
        (if 0 < Deb.normBand w b then w.val b yy xx / Deb.normBand w b
         else w.val b yy xx) := by
      simp only [Deb.weightsA]
      rw [if_pos h]
    have hpos : 0 < (Deb.weightsA w).val b yy xx := by
      rw [hval]
      by_cases hnb : 0 < Deb.normBand w b
      · rw [if_pos hnb]; exact div_pos (h b hb) hnb
      · rw [if_neg hnb]; exact h b hb
    refine ⟨⟨fun h0 => absurd h0 (ne_of_gt hpos), ?_⟩, fun _ => ⟨hval, hpos⟩⟩
    rintro ⟨b', hb', hz⟩
    exact absurd hz (ne_of_gt (h b' hb'))
  · have hval : (Deb.weightsA w).val b yy xx = 0 := by
      simp only [Deb.weightsA]
      rw [if_neg h]
    refine ⟨⟨fun _ => ?_, fun _ => hval⟩, fun hall => absurd hall h⟩
    push_neg at h
    obtain ⟨b', hb', hle⟩ := h
    exact ⟨b', hb', le_antisymm hle (hnn b' hb')⟩

/-- C4 witness: the weights array of the counterexample also witnesses
the amended statement at band 1. -/
theorem c4_sed_weight_masking_witness :
    1 < (Deb.Img3.mk 2 1 1 fun b _ _ => if b = 0 then 0 else 1).B ∧
      ((Deb.weightsA (Deb.Img3.mk 2 1 1 fun b _ _ => if b = 0 then 0 else 1)).val 1 0 0 = 0 ↔
        ∃ b' < (Deb.Img3.mk 2 1 1 fun b _ _ => if b = 0 then 0 else 1).B,
          (Deb.Img3.mk 2 1 1 fun b _ _ => if b = 0 then 0 else 1).val b' 0 0 = 0) := by
  refine ⟨by norm_num, ?_⟩
  exact (c4_sed_weight_masking (Deb.Img3.mk 2 1 1 fun b _ _ => if b = 0 then 0 else 1)
    1 0 0 (by norm_num)
    (fun b' _ => by by_cases hb : b' = 0 <;> simp [hb])).1

/-! ## `Blend.get_model` (claim C9)

`Blend.get_model()` accumulates `_model_img[bb] += model[m][slice]`
over sources into one zero-initialised image; `Blend.get_model(m)`
writes `model[m][slice]` into a fresh zero image.  `bb` covers image
rows `max(0, bottom) ≤ Y < top` (clipped to the image by numpy slicing)
while `get_slice_for` starts the source-frame rows at `max(0, -bottom)`
and ends them at `Ny - max(0, top - NY)`: both windows have the same
extent, offset by exactly `bottom` (resp. `left`), so the image pixel
`(Y, X)` receives the source-frame pixel `(Y - bottom, X - left)`. -/

namespace Deb

/-- Effective numpy slice stop on an axis of length `len`: a negative
stop counts from the end, and the result is clipped to the axis. -/
def sliceStop (stop : ℤ) (len : ℕ) : ℤ :=
  if stop < 0 then max 0 (stop + len) else min stop len

/-- Membership of image pixel `(yy, xx)` in the sanitised slice
`self.bb` for an image of height `H` and width `W`. -/
def Source.inBB (s : Source) (H W : ℕ) (yy xx : ℕ) : Bool :=
  decide (max 0 s.bottom ≤ (yy:ℤ) ∧ (yy:ℤ) < sliceStop s.top H ∧
    max 0 s.left ≤ (xx:ℤ) ∧ (xx:ℤ) < sliceStop s.right W)

/-- The value `model[m][model_slice]` contributes at image pixel
`(b, yy, xx)`: the combined source model at the matching source-frame
pixel `(yy - bottom, xx - left)`, using the stored Gamma. -/
def Source.patchVal (s : Source) (b yy xx : ℕ) : ℚ :=
  s.get_model s.Gamma b ((yy:ℤ) - s.bottom).toNat ((xx:ℤ) - s.left).toNat

/-- `Blend.get_model()` with `combine=True`: per-source in-place
accumulation `_model_img[bb] += model[m][slice]` into a zero image. -/
def Blend.get_model_all (bl : Blend) (H W : ℕ) : ℕ → ℕ → ℕ → ℚ :=
  bl.sources.foldl
    (fun acc s => fun b yy xx =>
      if s.inBB H W yy xx then acc b yy xx + s.patchVal b yy xx
      else acc b yy xx)
    (fun _ _ _ => 0)

/-- `Blend.get_model(m)`: `_model_img[bb] = model[model_slice]` on a
fresh zero image. -/
def Blend.get_model_one (bl : Blend) (H W m : ℕ) : ℕ → ℕ → ℕ → ℚ :=
  fun b yy xx =>
    let s := bl.sources.getD m ⟨none, none, 0, 0, 0, 0, 0, 0, 0, fun _ _ => 0, false, false⟩
    if s.inBB H W yy xx then s.patchVal b yy xx else 0

lemma foldl_patch (l : List Source) (base : ℕ → ℕ → ℕ → ℚ) (H W b yy xx : ℕ) :
    l.foldl
      (fun acc s => fun b' yy' xx' =>
        if s.inBB H W yy' xx' then acc b' yy' xx' + s.patchVal b' yy' xx'
        else acc b' yy' xx')
      base b yy xx =
    base b yy xx +
      (l.map (fun s => if s.inBB H W yy xx then s.patchVal b yy xx else 0)).sum := by
  induction l generalizing base with
  | nil => simp
  | cons s t ih =>
    rw [List.foldl_cons, ih]
    by_cases hc : s.inBB H W yy xx = true
    · simp only [hc, if_pos, List.map_cons, List.sum_cons]
      ring
    · simp only [List.map_cons, List.sum_cons]
      rw [if_neg hc, if_neg hc]
      ring

lemma map_sum_eq_range_sum {α : Type} (l : List α) (f : α → ℚ) (d : α) :
    (l.map f).sum = ∑ m ∈ Finset.range l.length, f (l.getD m d) := by
  induction l with
  | nil => simp
  | cons a t ih =>
    rw [List.map_cons, List.sum_cons, List.length_cons, Finset.sum_range_succ', ih]
    simp [add_comm]

end Deb

/-- C9: for every blend (overlapping, boundary-clamped boxes included)
and every image shape, the combined model image of `Blend.get_model()`
equals the pixelwise sum over all sources of that source's individually
rendered model image `Blend.get_model(m)` — linearity of superposition,
for any centroid placement (the box fields are quantified over all
values `set_center` can produce). -/
theorem c9_model_superposition (bl : Deb.Blend) (H W b yy xx : ℕ) :
    bl.get_model_all H W b yy xx =
      ∑ m ∈ Finset.range bl.sources.length, bl.get_model_one H W m b yy xx := by
  unfold Deb.Blend.get_model_all Deb.Blend.get_model_one
  rw [Deb.foldl_patch, Deb.map_sum_eq_range_sum _ _
    ⟨none, none, 0, 0, 0, 0, 0, 0, 0, fun _ _ => 0, false, false⟩]
  simp

/-! ## `Blend._update_positions` (claim C1)

`_update_positions` forms, per source with a truthy `shift_center`, the
2×2 normal-equations matrix `np.dot(MT, MT.T)` (or `np.dot(MT, MT.T*w)`
with weights) from the finite-difference shift images of
`_get_shift_differential`, and calls `np.linalg.inv` on it with **no**
`try/except`: on a singular matrix numpy raises
`LinAlgError("Singular matrix")` and the exception propagates out of
the fit.  Only a correction smaller than `center_min_dist` is
skipped. -/

namespace Deb

/-- Start of the bb rows in the image frame (`max(0, bottom)`). -/
def Source.bbRowStart (s : Source) : ℕ := (max 0 s.bottom).toNat

def Source.bbColStart (s : Source) : ℕ := (max 0 s.left).toNat

/-- Height of the clipped bounding box in the image frame. -/
def Source.bbH (s : Source) (H : ℕ) : ℕ := (sliceStop s.top H - max 0 s.bottom).toNat

def Source.bbW (s : Source) (W : ℕ) : ℕ := (sliceStop s.right W - max 0 s.left).toNat

/-- One component model of a source written into the image frame (an
entry of `self._models`). -/
def Source.componentPatch (s : Source) (H W k b yy xx : ℕ) : ℚ :=
  if s.inBB H W yy xx then
    s.modelComponent s.Gamma k b ((yy:ℤ) - s.bottom).toNat ((xx:ℤ) - s.left).toNat
  else 0

/-- `model_m`: the sum of the source's component models restricted to
its bounding box (`self._models[k][bb]` accumulated over the source's
components), indexed in the bb frame. -/
def Source.bbModel (s : Source) (H W b r c : ℕ) : ℚ :=
  ∑ k ∈ Finset.range s.K,
    s.componentPatch H W k b (s.bbRowStart + r) (s.bbColStart + c)

/-- `diff_img[0]` of `_get_shift_differential`: the finite difference
`(model_m - get_model(Gamma(dy, dx + offset))[slice_m]) / shift_center`,
with the last bb column zeroed (`diff_x[:,:,-1] = 0`). -/
def Source.diffX (gammaOp : ℚ → ℚ → ℕ → ℕ → ℚ) (s : Source) (H W b r c : ℕ) : ℚ :=
  if c = s.bbW W - 1 then 0
  else
    (s.bbModel H W b r c -
        s.get_model (gammaOp (s.y - ⌊s.y⌋) (s.x - ⌊s.x⌋ + s.shiftCenter)) b
          (s.srcRowLo + r) (s.srcColLo + c)) / s.shiftCenter

/-- `diff_img[1]`: same with the shift on the y side and the last bb
row zeroed (`diff_y[:,-1,:] = 0`). -/
def Source.diffY (gammaOp : ℚ → ℚ → ℕ → ℕ → ℚ) (s : Source) (H W b r c : ℕ) : ℚ :=
  if r = s.bbH H - 1 then 0
  else
    (s.bbModel H W b r c -
        s.get_model (gammaOp (s.y - ⌊s.y⌋ + s.shiftCenter) (s.x - ⌊s.x⌋)) b
          (s.srcRowLo + r) (s.srcColLo + c)) / s.shiftCenter

/-- Sum of `f` over the flattened `(B, bbH, bbW)` cube. -/
def tripleSum (Bn Hn Wn : ℕ) (f : ℕ → ℕ → ℕ → ℚ) : ℚ :=
  ∑ b ∈ Finset.range Bn, ∑ r ∈ Finset.range Hn, ∑ c ∈ Finset.range Wn, f b r c

/-- The per-pixel weight factor of `MT.T*w`: the full weights restricted
to the bounding box, or 1 in the flat-weights branch. -/
def Source.posWeight (s : Source) (wOpt : Option Img3) (b r c : ℕ) : ℚ :=
  match wOpt with
  | none => 1
  | some w => w.val b (s.bbRowStart + r) (s.bbColStart + c)

/-- The 2×2 normal-equations matrix `np.dot(MT, MT.T*w)` as
`(a11, a12, a21, a22)` with rows `MT = [diff_x, diff_y]`. -/
def Source.normalMat (gammaOp : ℚ → ℚ → ℕ → ℕ → ℚ) (s : Source)
    (wOpt : Option Img3) (Bn H W : ℕ) : ℚ × ℚ × ℚ × ℚ :=
  let dx := s.diffX gammaOp H W
  let dy := s.diffY gammaOp H W
  let pw := s.posWeight wOpt
  (tripleSum Bn (s.bbH H) (s.bbW W) (fun b r c => dx b r c * (dx b r c * pw b r c)),
   tripleSum Bn (s.bbH H) (s.bbW W) (fun b r c => dx b r c * (dy b r c * pw b r c)),
   tripleSum Bn (s.bbH H) (s.bbW W) (fun b r c => dy b r c * (dx b r c * pw b r c)),
   tripleSum Bn (s.bbH H) (s.bbW W) (fun b r c => dy b r c * (dy b r c * pw b r c)))

/-- Determinant of the 2×2 matrix `(a11, a12, a21, a22)`. -/
def det2 (m : ℚ × ℚ × ℚ × ℚ) : ℚ := m.1 * m.2.2.2 - m.2.1 * m.2.2.1

/-- `np.linalg.inv` followed by the two matrix–vector products: numpy
raises `LinAlgError("Singular matrix")` exactly when the 2×2 matrix is
singular (determinant zero, in exact arithmetic); otherwise the
correction `inv(M) · v` is returned. -/
def linalgSolve2 (m : ℚ × ℚ × ℚ × ℚ) (v : ℚ × ℚ) : Except String (ℚ × ℚ) :=
  if det2 m = 0 then Except.error "Singular matrix"
  else
    Except.ok ((m.2.2.2 * v.1 - m.2.1 * v.2) / det2 m,
      (m.1 * v.2 - m.2.2.1 * v.1) / det2 m)

/-- `y = self._weights[0]*(self._model - self._img)`: the residual of
the cached full model, weighted by the original weights (1 when
flat). -/
def Blend.yResidual (bl : Blend) (img : Img3) (b yy xx : ℕ) : ℚ :=
  (match bl.weights.W with
   | none => 1
   | some w => w.val b yy xx) *
    (bl.get_model_all img.H img.W b yy xx - img.val b yy xx)

/-- Right-hand side `np.dot(MT, y[bb_m].flatten())`. -/
def Source.normalRhs (gammaOp : ℚ → ℚ → ℕ → ℕ → ℚ) (s : Source)
    (yRes : ℕ → ℕ → ℕ → ℚ) (Bn H W : ℕ) : ℚ × ℚ :=
  (tripleSum Bn (s.bbH H) (s.bbW W) (fun b r c =>
      s.diffX gammaOp H W b r c * yRes b (s.bbRowStart + r) (s.bbColStart + c)),
   tripleSum Bn (s.bbH H) (s.bbW W) (fun b r c =>
      s.diffY gammaOp H W b r c * yRes b (s.bbRowStart + r) (s.bbColStart + c)))

/-- `self.center_min_dist = 1e-3`. -/
def center_min_dist : ℚ := 1 / 1000

/-- The position-update body for one source: sources with falsy
`shift_center` are left alone; otherwise solve the normal equations
(raising on a singular matrix) and apply the correction through
`set_center` only if it exceeds `center_min_dist`. -/
def sourceShiftStep (gammaOp : ℚ → ℚ → ℕ → ℕ → ℚ) (wOpt : Option Img3)
    (yRes : ℕ → ℕ → ℕ → ℚ) (Bn H W : ℕ) (s : Source) : Except String Source :=
  if s.shiftCenter = 0 then Except.ok s
  else
    match linalgSolve2 (s.normalMat gammaOp wOpt Bn H W)
        (s.normalRhs gammaOp yRes Bn H W) with
    | Except.error e => Except.error e
    | Except.ok dd =>
      if center_min_dist ^ 2 < dd.1 ^ 2 + dd.2 ^ 2 then
        Except.ok (s.set_center gammaOp (s.y + dd.2, s.x + dd.1) none)
      else Except.ok s

/-- `Blend._update_positions`: the per-source steps run in order and an
uncaught `LinAlgError` aborts the whole pass (and with it the fit). -/
def Blend.update_positions (gammaOp : ℚ → ℚ → ℕ → ℕ → ℚ) (bl : Blend)
    (img : Img3) : Except String Blend :=
  (bl.sources.mapM
      (sourceShiftStep gammaOp bl.weights.W (bl.yResidual img) img.B img.H img.W)).map
    fun srcs => { bl with sources := srcs }

/-- If the first source has a truthy `shift_center` and its normal
matrix is singular, the whole position update errors out. -/
lemma update_positions_error_of_det (gammaOp : ℚ → ℚ → ℕ → ℕ → ℚ)
    (bl : Blend) (img : Img3) (s : Source) (rest : List Source)
    (hsrc : bl.sources = s :: rest) (hshift : s.shiftCenter ≠ 0)
    (hdet : det2 (s.normalMat gammaOp bl.weights.W img.B img.H img.W) = 0) :
    bl.update_positions gammaOp img = Except.error "Singular matrix" := by
  unfold Blend.update_positions
  rw [hsrc, List.mapM_cons]
  have hstep : sourceShiftStep gammaOp bl.weights.W (bl.yResidual img)
      img.B img.H img.W s = Except.error "Singular matrix" := by
    unfold sourceShiftStep
    rw [if_neg hshift]
    unfold linalgSolve2
    rw [if_pos hdet]
  rw [hstep]
  rfl

end Deb

def exSourceShift : Deb.Source :=
  ⟨none, none, 0, 0, 0, 1, 0, 1, 1/5, fun _ _ => 0, false, false⟩

def exBlendShift : Deb.Blend :=
  ⟨[exSourceShift], 0, -1, some exImg2, none, [1, 0], ⟨none, none, none⟩⟩

/-- C1 counterexample: a blend whose single movable source produces a
singular (here: zero) 2×2 normal matrix; the position update does not
skip the correction — it raises `LinAlgError("Singular matrix")` and
aborts. -/
theorem c1_counterexample :
    Deb.det2 (exSourceShift.normalMat (fun _ _ _ _ => 0) exBlendShift.weights.W
        exImg2.B exImg2.H exImg2.W) = 0 ∧
      exBlendShift.update_positions (fun _ _ _ _ => 0) exImg2 =
        Except.error "Singular matrix" := by
  have hdet : Deb.det2 (exSourceShift.normalMat (fun _ _ _ _ => 0)
      exBlendShift.weights.W exImg2.B exImg2.H exImg2.W) = 0 := by
    norm_num [Deb.det2, Deb.Source.normalMat, Deb.tripleSum, Deb.Source.bbH,
      Deb.Source.bbW, Deb.sliceStop, Deb.Source.diffX, Deb.Source.diffY,
      exSourceShift, exBlendShift, exImg2, Finset.sum_range_succ]
  exact ⟨hdet, Deb.update_positions_error_of_det _ _ _ _ _ rfl
    (by norm_num [exSourceShift]) hdet⟩

/-- C1 (amended): a singular 2×2 normal-equations matrix in the
position-update sub-step is *not* handled: for every blend whose first
movable source yields a singular matrix, `np.linalg.inv` raises
`LinAlgError` and the exception propagates, aborting the fit (the
centroid correction is skipped only when its magnitude is at most
`center_min_dist`). -/
theorem c1_singular_matrix_aborts (gammaOp : ℚ → ℚ → ℕ → ℕ → ℚ)
    (bl : Deb.Blend) (img : Deb.Img3) (s : Deb.Source) (rest : List Deb.Source)
    (hsrc : bl.sources = s :: rest) (hshift : s.shiftCenter ≠ 0)
    (hdet : Deb.det2 (s.normalMat gammaOp bl.weights.W img.B img.H img.W) = 0) :
    bl.update_positions gammaOp img = Except.error "Singular matrix" :=
  Deb.update_positions_error_of_det gammaOp bl img s rest hsrc hshift hdet

/-- C1 witness: a weighted variant of the counterexample blend
satisfies the hypotheses of the abort theorem. -/
theorem c1_singular_matrix_aborts_witness :
    (Deb.Blend.mk [exSourceShift] 0 (-1) (some exImg2) none [1, 0]
        ⟨some exImg2, none, none⟩).update_positions (fun _ _ _ _ => 0) exImg2 =
      Except.error "Singular matrix" :=
  c1_singular_matrix_aborts (fun _ _ _ _ => 0)
    (Deb.Blend.mk [exSourceShift] 0 (-1) (some exImg2) none [1, 0]
      ⟨some exImg2, none, none⟩)
    exImg2 exSourceShift [] rfl (by norm_num [exSourceShift])
    (by norm_num [Deb.det2, Deb.Source.normalMat, Deb.tripleSum, Deb.Source.bbH,
      Deb.Source.bbW, Deb.sliceStop, Deb.Source.diffX, Deb.Source.diffY,
      exSourceShift, exImg2, Finset.sum_range_succ])

/-! ## `transformation.getRadialMonotonicOp` (claim C8)

`getRadialMonotonicWeights` builds an 8×N array of neighbor weights
(one row per neighbor offset from `getOffsets`), zeroing entries whose
neighbor is not strictly closer to the central peak (`invalidPix`) or
whose band entry is outside the matrix / a wrap-around artifact
(`mask` from `diagonalizeArray`).  In "nearest" mode, each pixel keeps
weight `minGradient` on its first best-aligned neighbor (`np.argmax`
per column) and the peak column is cleared; in "soft" mode the weights
are normalised to unit column sums (zero sums replaced by 1).
`getRadialMonotonicOp` turns the 8×N array into a band matrix via
`diagonalsToSparse` (`A[i, i+offset[n]] = cosNorm[n][i]`) and subtracts
the identity with the peak diagonal entry flipped to -1.

The code computes distances with `np.sqrt` and the alignment weights as
`cos(angles - relativeAngles)` through `arctan2`; every use downstream
is a comparison, a zero-test, an argmax or a positive normalisation, so
we embed the distance by its square and the cosine by the order- and
sign-equivalent rational `sign(v·d)·(v·d)²/(|v|²·|d|²)` (the exact real
value is `v·d/(|v||d|)` with `v` the vector from the pixel to the peak
and `d` the stored coordinate difference; `t ↦ sign(t)·t²` is strictly
monotone, so argmax choices, ties, signs and zero patterns coincide;
the `arctan2` special-casing differs from the true angle only at the
peak pixel and at masked filler entries, whose weights are zeroed). -/

namespace RadMono

/-- `px = int(shape[1]/2)`. -/
def pxc (w : ℕ) : ℕ := w / 2

/-- `py = int(shape[0]/2)`. -/
def pyc (h : ℕ) : ℕ := h / 2

/-- `X[i] = (i mod w) - px`: x-offset of flat pixel `i` from the peak. -/
def Xc (w i : ℕ) : ℤ := (i % w : ℕ) - (pxc w : ℕ)

/-- `Y[i] = (i div w) - py`. -/
def Yc (h w i : ℕ) : ℤ := (i / w : ℕ) - (pyc h : ℕ)

/-- Squared distance of flat pixel `i` from the peak (the code stores
`np.sqrt` of this; all uses are order comparisons). -/
def distSq (h w i : ℕ) : ℤ := Xc w i ^ 2 + Yc h w i ^ 2

/-- Row offsets of the 8 neighbor coordinates
`[(-1,-1), (-1,0), (-1,1), (0,-1), (0,1), (1,-1), (1,0), (1,1)]`. -/
def nOffY : Fin 8 → ℤ := ![-1, -1, -1, 0, 0, 1, 1, 1]

def nOffX : Fin 8 → ℤ := ![-1, 0, 1, -1, 1, -1, 0, 1]

/-- `offsets = [width*y + x for y, x in coords]` (`getOffsets`). -/
def offset (w : ℕ) (n : Fin 8) : ℤ := nOffY n * w + nOffX n

/-- The band entry `(n, i)` lies inside the `N×N` matrix. -/
def bandValid (h w : ℕ) (n : Fin 8) (i : ℕ) : Prop :=
  0 ≤ (i : ℤ) + offset w n ∧ (i : ℤ) + offset w n < (h * w : ℕ)

instance (h w : ℕ) (n : Fin 8) (i : ℕ) : Decidable (bandValid h w n i) := by
  unfold bandValid; exact instDecidableAnd

/-- Flat index of the neighbor on band `n`. -/
def nb (w : ℕ) (n : Fin 8) (i : ℕ) : ℕ := ((i : ℤ) + offset w n).toNat

/-- The six explicit edge fix-ups of `diagonalizeArray`, masking band
entries whose flattened neighbor wraps around a row edge
(`mask[0][np.arange(1,height)*width] = 1` and friends; the row
`np.arange(height)*width - 1` of `mask[2]` contains the numpy index
`-1`, i.e. the last element `h*w - 1`). -/
def edgeFix (h w : ℕ) (n : Fin 8) (i : ℕ) : Prop :=
  match n.val with
  | 0 => i ∈ (Finset.Ico 1 h).image (· * w)
  | 2 => i = h * w - 1 ∨ i ∈ (Finset.Ico 1 h).image (fun yy => yy * w - 1)
  | 3 => i ∈ (Finset.Ico 1 h).image (· * w)
  | 4 => i ∈ (Finset.Ico 1 h).image (fun yy => yy * w - 1)
  | 5 => i ∈ (Finset.range h).image (· * w)
  | 7 => i ∈ (Finset.Ico 1 (h - 1)).image (fun yy => yy * w - 1)
  | _ => False

instance (h w : ℕ) (n : Fin 8) (i : ℕ) : Decidable (edgeFix h w n i) := by
  unfold edgeFix
  split <;> infer_instance

/-- The combined `diagonalizeArray` mask: outside the band, or an edge
fix-up. -/
def masked (h w : ℕ) (n : Fin 8) (i : ℕ) : Prop :=
  ¬ bandValid h w n i ∨ edgeFix h w n i

instance (h w : ℕ) (n : Fin 8) (i : ℕ) : Decidable (masked h w n i) := by
  unfold masked; exact instDecidableOr

/-- `invalidPix = relativeDist <= 0` with
`relativeDist[n,i] = dist[i] - distArr[n,i]` and `distArr` the
diagonalized distances (0 filler outside the band); squared distances
compare identically. -/
def invalid (h w : ℕ) (n : Fin 8) (i : ℕ) : Prop :=
  (bandValid h w n i ∧ distSq h w i ≤ distSq h w (nb w n i)) ∨
    (¬ bandValid h w n i ∧ distSq h w i ≤ 0)

instance (h w : ℕ) (n : Fin 8) (i : ℕ) : Decidable (invalid h w n i) := by
  unfold invalid; exact instDecidableOr

/-- `dx = xArr - X` with `xArr` the diagonalized `X` (0 filler outside
the band). -/
def dxA (h w : ℕ) (n : Fin 8) (i : ℕ) : ℤ :=
  (if bandValid h w n i then Xc w (nb w n i) else 0) - Xc w i

def dyA (h w : ℕ) (n : Fin 8) (i : ℕ) : ℤ :=
  (if bandValid h w n i then Yc h w (nb w n i) else 0) - Yc h w i

/-- The rational surrogate for `cosWeight = np.cos(dAngles)` (see the
section comment): `sign(v·d)·(v·d)² / (|v|²·|d|²)` with
`v = (-X[i], -Y[i])` and `d = (dx, dy)`. -/
def cosW (h w : ℕ) (n : Fin 8) (i : ℕ) : ℚ :=
  let vd : ℤ := (-(Xc w i)) * dxA h w n i + (-(Yc h w i)) * dyA h w n i
  ((vd * vd.natAbs : ℤ) : ℚ) /
    ((distSq h w i * (dxA h w n i ^ 2 + dyA h w n i ^ 2) : ℤ) : ℚ)

/-- `cosWeight` after `cosWeight[invalidPix] = 0` and
`cosWeight[mask] = 0`. -/
def cosWeight (h w : ℕ) (n : Fin 8) (i : ℕ) : ℚ :=
  if invalid h w n i ∨ masked h w n i then 0 else cosW h w n i

/-- `np.argmax` down a column: the first row attaining the maximum. -/
def argmax8 (f : Fin 8 → ℚ) : Fin 8 :=
  (List.finRange 8).foldl (fun best n => if f best < f n then n else best) 0

/-- Flat index of the peak pixel (`px + py*shape[1]`). -/
def peakIdx (h w : ℕ) : ℕ := pxc w + pyc h * w

/-- "nearest" mode weights: `minGradient` on the argmax row of each
column, then the peak column cleared. -/
def cosNormNearest (h w : ℕ) (minGrad : ℚ) (n : Fin 8) (i : ℕ) : ℚ :=
  if i = peakIdx h w then 0
  else if n = argmax8 (fun m => cosWeight h w m i) then minGrad else 0

/-- `normalize = np.sum(cosWeight, axis=0)` for one column. -/
def normalizeCol (h w i : ℕ) : ℚ := ∑ n : Fin 8, cosWeight h w n i

/-- "soft" mode weights: column-normalised (`normalize[normalize==0]=1`)
with the mask re-applied. -/
def cosNormSoft (h w : ℕ) (n : Fin 8) (i : ℕ) : ℚ :=
  if masked h w n i then 0
  else cosWeight h w n i /
    (if normalizeCol h w i = 0 then 1 else normalizeCol h w i)

/-- The weights used by `getRadialMonotonicOp` (which passes
`minGradient=1`). -/
def cosNorm (h w : ℕ) (useNearest : Bool) (n : Fin 8) (i : ℕ) : ℚ :=
  if useNearest then cosNormNearest h w 1 n i else cosNormSoft h w n i

/-- Row `i` of `(cosArr - scipy.sparse.diags(diagonal)) · x`:
`diagonalsToSparse` places `cosNorm[n][i]` at `A[i, i + offset[n]]`
(within the matrix) and `diagonal` is 1 with -1 at the peak. -/
def monotonicApply (h w : ℕ) (useNearest : Bool) (x : ℕ → ℚ) (i : ℕ) : ℚ :=
  (∑ n : Fin 8,
      if bandValid h w n i then cosNorm h w useNearest n i * x (nb w n i) else 0) -
    (if i = peakIdx h w then (-1 : ℚ) else 1) * x i

/-- Radially monotonic flattened image: flux never increases with
distance from the central peak. -/
def RadiallyMonotonic (h w : ℕ) (x : ℕ → ℚ) : Prop :=
  ∀ i < h * w, ∀ j < h * w, distSq h w j ≤ distSq h w i → x i ≤ x j

/-! Peak and coordinate lemmas. -/

lemma pxc_lt (w : ℕ) (hw : 1 ≤ w) : pxc w < w :=
  Nat.div_lt_self (by omega) (by omega)

lemma pyc_lt (h : ℕ) (hh : 1 ≤ h) : pyc h < h :=
  Nat.div_lt_self (by omega) (by omega)

lemma peakIdx_lt (h w : ℕ) (hh : 1 ≤ h) (hw : 1 ≤ w) : peakIdx h w < h * w := by
  have h1 := pxc_lt w hw
  have h2 := pyc_lt h hh
  have h3 : (pyc h + 1) * w ≤ h * w := Nat.mul_le_mul_right w (by omega)
  unfold peakIdx
  have h4 : pyc h * w + w ≤ h * w := by
    calc pyc h * w + w = (pyc h + 1) * w := by ring
      _ ≤ h * w := h3
  omega

lemma peak_mod (h w : ℕ) (hw : 1 ≤ w) : peakIdx h w % w = pxc w := by
  unfold peakIdx
  rw [Nat.add_mul_mod_self_right]
  exact Nat.mod_eq_of_lt (pxc_lt w hw)

lemma peak_div (h w : ℕ) (hw : 1 ≤ w) : peakIdx h w / w = pyc h := by
  unfold peakIdx
  rw [Nat.add_mul_div_right _ _ (by omega : 0 < w), Nat.div_eq_of_lt (pxc_lt w hw),
    zero_add]

lemma Xc_peak (h w : ℕ) (hw : 1 ≤ w) : Xc w (peakIdx h w) = 0 := by
  unfold Xc
  rw [peak_mod h w hw]
  ring

lemma Yc_peak (h w : ℕ) (hw : 1 ≤ w) : Yc h w (peakIdx h w) = 0 := by
  unfold Yc
  rw [peak_div h w hw]
  ring

lemma distSq_peak (h w : ℕ) (hw : 1 ≤ w) : distSq h w (peakIdx h w) = 0 := by
  unfold distSq
  rw [Xc_peak h w hw, Yc_peak h w hw]
  ring

lemma distSq_nonneg (h w i : ℕ) : 0 ≤ distSq h w i := by
  unfold distSq
  positivity

lemma eq_of_coords (w i j : ℕ) (hx : i % w = j % w) (hy : i / w = j / w) :
    i = j := by
  rw [← Nat.div_add_mod i w, ← Nat.div_add_mod j w, hx, hy]

/-! Sign and positivity of the surrogate cosine weights. -/

lemma cosW_pos_of_closer (h w : ℕ) (n : Fin 8) (i : ℕ)
    (hbv : bandValid h w n i)
    (hcl : distSq h w (nb w n i) < distSq h w i) :
    0 < cosW h w n i := by
  unfold cosW
  have hdx : dxA h w n i = Xc w (nb w n i) - Xc w i := by
    unfold dxA; rw [if_pos hbv]
  have hdy : dyA h w n i = Yc h w (nb w n i) - Yc h w i := by
    unfold dyA; rw [if_pos hbv]
  have hrel : distSq h w (nb w n i) =
      distSq h w i + 2 * (Xc w i * dxA h w n i + Yc h w i * dyA h w n i) +
        (dxA h w n i ^ 2 + dyA h w n i ^ 2) := by
    unfold distSq
    rw [hdx, hdy]
    ring
  have hdd : 0 < dxA h w n i ^ 2 + dyA h w n i ^ 2 := by
    rcases lt_or_eq_of_le (by positivity : (0:ℤ) ≤ dxA h w n i ^ 2 + dyA h w n i ^ 2)
      with hlt | heq
    · exact hlt
    · exfalso
      have hx0 : dxA h w n i = 0 ∧ dyA h w n i = 0 := by
        constructor <;> nlinarith [sq_nonneg (dxA h w n i), sq_nonneg (dyA h w n i)]
      rw [hrel, hx0.1, hx0.2] at hcl
      simp at hcl
  have hvd : 0 < -(Xc w i) * dxA h w n i + -(Yc h w i) * dyA h w n i := by
    nlinarith [hrel, hcl]
  have hnum : (0:ℤ) <
      (-(Xc w i) * dxA h w n i + -(Yc h w i) * dyA h w n i) *
        ((-(Xc w i) * dxA h w n i + -(Yc h w i) * dyA h w n i).natAbs : ℤ) := by
    apply mul_pos hvd
    exact_mod_cast Int.natAbs_pos.mpr (ne_of_gt hvd)
  have hden : (0:ℤ) < distSq h w i * (dxA h w n i ^ 2 + dyA h w n i ^ 2) := by
    apply mul_pos _ hdd
    calc (0:ℤ) ≤ distSq h w (nb w n i) := distSq_nonneg h w _
      _ < distSq h w i := hcl
  exact div_pos (by exact_mod_cast hnum) (by exact_mod_cast hden)

/-- A nonzero final weight sits on an in-band, unmasked, strictly
closer neighbor. -/
lemma closer_of_cosWeight_ne (h w : ℕ) (n : Fin 8) (i : ℕ)
    (hne : cosWeight h w n i ≠ 0) :
    bandValid h w n i ∧ distSq h w (nb w n i) < distSq h w i ∧
      ¬ edgeFix h w n i := by
  unfold cosWeight at hne
  by_cases hc : invalid h w n i ∨ masked h w n i
  · rw [if_pos hc] at hne
    exact absurd rfl hne
  · push_neg at hc
    obtain ⟨hinv, hmask⟩ := hc
    unfold masked at hmask
    push_neg at hmask
    obtain ⟨hbv, hfix⟩ := hmask
    refine ⟨hbv, ?_, hfix⟩
    unfold invalid at hinv
    push_neg at hinv
    exact hinv.1 hbv

lemma cosWeight_nonneg (h w : ℕ) (n : Fin 8) (i : ℕ) :
    0 ≤ cosWeight h w n i := by
  by_cases hne : cosWeight h w n i = 0
  · rw [hne]
  · obtain ⟨hbv, hcl, _⟩ := closer_of_cosWeight_ne h w n i hne
    have := cosW_pos_of_closer h w n i hbv hcl
    unfold cosWeight at hne ⊢
    by_cases hc : invalid h w n i ∨ masked h w n i
    · rw [if_pos hc]
    · rw [if_neg hc]
      exact le_of_lt this

lemma cosWeight_peak (h w : ℕ) (n : Fin 8) (hw : 1 ≤ w) :
    cosWeight h w n (peakIdx h w) = 0 := by
  unfold cosWeight
  rw [if_pos]
  unfold invalid
  by_cases hbv : bandValid h w n (peakIdx h w)
  · exact Or.inl (Or.inl ⟨hbv, by
      rw [distSq_peak h w hw]
      exact distSq_nonneg h w _⟩)
  · exact Or.inl (Or.inr ⟨hbv, le_of_eq (distSq_peak h w hw)⟩)

/-! `np.argmax` facts. -/

lemma foldl_argmax_ge (f : Fin 8 → ℚ) (l : List (Fin 8)) (b : Fin 8) :
    f b ≤ f (l.foldl (fun best n => if f best < f n then n else best) b) ∧
      ∀ m ∈ l, f m ≤ f (l.foldl (fun best n => if f best < f n then n else best) b) := by
  induction l generalizing b with
  | nil => exact ⟨le_refl _, by simp⟩
  | cons a t ih =>
    rw [List.foldl_cons]
    have h1 : f b ≤ f (if f b < f a then a else b) ∧
        f a ≤ f (if f b < f a then a else b) := by
      by_cases hc : f b < f a
      · rw [if_pos hc]; exact ⟨le_of_lt hc, le_refl _⟩
      · rw [if_neg hc]; exact ⟨le_refl _, le_of_not_lt hc⟩
    obtain ⟨ihb, ihm⟩ := ih (if f b < f a then a else b)
    refine ⟨le_trans h1.1 ihb, ?_⟩
    intro m hm
    rcases List.mem_cons.mp hm with rfl | hm
    · exact le_trans h1.2 ihb
    · exact ihm m hm

lemma argmax8_ge (f : Fin 8 → ℚ) (n : Fin 8) : f n ≤ f (argmax8 f) := by
  unfold argmax8
  exact (foldl_argmax_ge f (List.finRange 8) 0).2 n (List.mem_finRange n)

/-! Every non-peak pixel has a strictly closer, unmasked neighbor with
positive weight: the componentwise step toward the peak. -/

/-- The band row of the componentwise toward-peak step `(dy, dx)`. -/
def towardIdx (dy dx : ℤ) : Fin 8 :=
  if dy = -1 then (if dx = -1 then 0 else if dx = 0 then 1 else 2)
  else if dy = 0 then (if dx = -1 then 3 else 4)
  else if dx = -1 then 5 else if dx = 0 then 6 else 7

lemma flat_mod (w xj yj : ℕ) (hxj : xj < w) : (yj * w + xj) % w = xj := by
  rw [Nat.add_mod, Nat.mul_mod_left]
  simp [Nat.mod_eq_of_lt hxj]

lemma flat_div (w xj yj : ℕ) (hw : 0 < w) (hxj : xj < w) :
    (yj * w + xj) / w = yj := by
  rw [Nat.add_comm, Nat.add_mul_div_right xj yj hw, Nat.div_eq_of_lt hxj, zero_add]

lemma step_sq (a s : ℤ) (h1 : a < 0 → s = 1) (h2 : 0 < a → s = -1)
    (h3 : a = 0 → s = 0) :
    (a + s) ^ 2 ≤ a ^ 2 ∧ (a ≠ 0 → (a + s) ^ 2 < a ^ 2) := by
  rcases lt_trichotomy a 0 with ha | ha | ha
  · rw [h1 ha]
    exact ⟨by nlinarith, fun _ => by nlinarith⟩
  · rw [h3 ha, ha]
    simp
  · rw [h2 ha]
    exact ⟨by nlinarith, fun _ => by nlinarith⟩

/-- Mod facts for members of the edge-fix index sets. -/
lemma mod_of_mem_mul (h' w i : ℕ)
    (hmem : i ∈ (Finset.Ico 1 h').image (· * w)) : i % w = 0 := by
  obtain ⟨yy, _, rfl⟩ := Finset.mem_image.mp hmem
  exact Nat.mul_mod_left yy w

lemma mod_of_mem_range_mul (h' w i : ℕ)
    (hmem : i ∈ (Finset.range h').image (· * w)) : i % w = 0 := by
  obtain ⟨yy, _, rfl⟩ := Finset.mem_image.mp hmem
  exact Nat.mul_mod_left yy w

lemma mul_sub_one_mod (yy w : ℕ) (hy : 1 ≤ yy) (hw : 1 ≤ w) :
    (yy * w - 1) % w = w - 1 := by
  have h1 : (yy - 1) * w + w = yy * w := by
    calc (yy - 1) * w + w = (yy - 1 + 1) * w := by ring
      _ = yy * w := by rw [Nat.sub_add_cancel hy]
  have hrw : yy * w - 1 = (yy - 1) * w + (w - 1) := by omega
  rw [hrw, Nat.add_mod, Nat.mul_mod_left]
  simp [Nat.mod_eq_of_lt (by omega : w - 1 < w)]

lemma mod_of_mem_mul_sub_one (h' w i : ℕ) (hw : 1 ≤ w)
    (hmem : i ∈ (Finset.Ico 1 h').image (fun yy => yy * w - 1)) :
    i % w = w - 1 := by
  obtain ⟨yy, hyy, rfl⟩ := Finset.mem_image.mp hmem
  exact mul_sub_one_mod yy w (Finset.mem_Ico.mp hyy).1 hw

lemma last_mod (h w : ℕ) (hh : 1 ≤ h) (hw : 1 ≤ w) :
    (h * w - 1) % w = w - 1 :=
  mul_sub_one_mod h w hh hw

/-- Core step: given explicit in-bounds neighbor coordinates matching
row `n`, a strict distance decrease, and no edge fix-up, the final
weight of entry `(n, i)` is positive. -/
lemma cosWeight_pos_core (h w : ℕ) (i : ℕ)
    (n : Fin 8) (xj yj : ℕ) (hxj : xj < w) (hyj : yj < h)
    (hX : (xj : ℤ) = (i % w : ℕ) + nOffX n) (hY : (yj : ℤ) = (i / w : ℕ) + nOffY n)
    (hcl : distSq h w (yj * w + xj) < distSq h w i)
    (hfix : ¬ edgeFix h w n i) :
    0 < cosWeight h w n i := by
  have hw : 1 ≤ w := by omega
  have hjlt : yj * w + xj < h * w := by
    have h1 : (yj + 1) * w ≤ h * w := Nat.mul_le_mul_right w (by omega)
    have h2 : yj * w + w = (yj + 1) * w := by ring
    omega
  have hiw : (i : ℤ) = w * (i / w : ℕ) + (i % w : ℕ) := by
    exact_mod_cast (Nat.div_add_mod i w).symm
  have hoffeq : (i : ℤ) + offset w n = ((yj * w + xj : ℕ) : ℤ) := by
    unfold offset
    push_cast
    rw [hiw]
    have hxj' := hX
    have hyj' := hY
    push_cast at hxj' hyj'
    nlinarith [hxj', hyj']
  have hbv : bandValid h w n i := by
    constructor
    · rw [hoffeq]
      exact Int.natCast_nonneg _
    · rw [hoffeq]
      exact_mod_cast hjlt
  have hnbj : nb w n i = yj * w + xj := by
    unfold nb
    rw [hoffeq]
    exact Int.toNat_natCast _
  have hinv : ¬ invalid h w n i := by
    unfold invalid
    rintro (⟨_, hle⟩ | ⟨hnbv, _⟩)
    · rw [hnbj] at hle
      omega
    · exact hnbv hbv
  have hmask : ¬ masked h w n i := by
    unfold masked
    rintro (hnbv | hf)
    · exact hnbv hbv
    · exact hfix hf
  have hpos : 0 < cosW h w n i := by
    apply cosW_pos_of_closer h w n i hbv
    rw [hnbj]
    exact hcl
  have hcm : ¬ (invalid h w n i ∨ masked h w n i) := by
    rintro (hc | hc)
    · exact hinv hc
    · exact hmask hc
  unfold cosWeight
  rw [if_neg hcm]
  exact hpos

/-- The componentwise step toward the peak strictly decreases the
squared distance. -/
lemma distSq_toward_lt (h w : ℕ) (hw : 1 ≤ w) (i xj yj : ℕ) (hxj : xj < w)
    (dx dy : ℤ)
    (hX : (xj : ℤ) = (i % w : ℕ) + dx) (hY : (yj : ℤ) = (i / w : ℕ) + dy)
    (hdx1 : Xc w i < 0 → dx = 1) (hdx2 : 0 < Xc w i → dx = -1)
    (hdx3 : Xc w i = 0 → dx = 0)
    (hdy1 : Yc h w i < 0 → dy = 1) (hdy2 : 0 < Yc h w i → dy = -1)
    (hdy3 : Yc h w i = 0 → dy = 0)
    (hne : ¬ (Xc w i = 0 ∧ Yc h w i = 0)) :
    distSq h w (yj * w + xj) < distSq h w i := by
  have hXj : Xc w (yj * w + xj) = Xc w i + dx := by
    unfold Xc
    rw [flat_mod w xj yj hxj, hX]
    ring
  have hYj : Yc h w (yj * w + xj) = Yc h w i + dy := by
    unfold Yc
    rw [flat_div w xj yj (by omega) hxj, hY]
    ring
  have hsx := step_sq (Xc w i) dx hdx1 hdx2 hdx3
  have hsy := step_sq (Yc h w i) dy hdy1 hdy2 hdy3
  unfold distSq
  rw [hXj, hYj]
  rcases not_and_or.mp hne with hx0 | hy0
  · have h1 := hsx.2 hx0
    have h2 := hsy.1
    linarith
  · have h1 := hsy.2 hy0
    have h2 := hsx.1
    linarith

/-- Every in-bounds non-peak pixel column has a positive final weight:
the componentwise toward-peak neighbor is in band, strictly closer,
never edge-masked, and positively aligned. -/
lemma exists_pos_cosWeight (h w : ℕ) (hh : 1 ≤ h) (hw : 1 ≤ w) (i : ℕ)
    (hi : i < h * w) (hip : i ≠ peakIdx h w) :
    ∃ n : Fin 8, 0 < cosWeight h w n i := by
  have hpx := pxc_lt w hw
  have hpy := pyc_lt h hh
  have hyih : i / w < h := by
    rw [Nat.div_lt_iff_lt_mul (by omega : 0 < w)]
    exact hi
  have hne : ¬ (Xc w i = 0 ∧ Yc h w i = 0) := by
    rintro ⟨hx, hy⟩
    apply hip
    apply eq_of_coords w i (peakIdx h w)
    · rw [peak_mod h w hw]
      unfold Xc at hx
      omega
    · rw [peak_div h w hw]
      unfold Yc at hy
      omega
  rcases lt_trichotomy (i % w) (pxc w) with hx | hx | hx <;>
    rcases lt_trichotomy (i / w) (pyc h) with hy | hy | hy
  -- xi < px, yi < py : step (dy, dx) = (1, 1), band row 7
  · have hXneg : Xc w i < 0 := by unfold Xc; omega
    have hYneg : Yc h w i < 0 := by unfold Yc; omega
    have hX1 : ((i % w + 1 : ℕ) : ℤ) = (i % w : ℕ) + 1 := by push_cast; ring
    have hY1 : ((i / w + 1 : ℕ) : ℤ) = (i / w : ℕ) + 1 := by push_cast; ring
    have hxj : i % w + 1 < w := by omega
    refine ⟨7, cosWeight_pos_core h w i 7 (i % w + 1) (i / w + 1) hxj (by omega)
      (by rw [show nOffX 7 = 1 from by decide]; exact hX1)
      (by rw [show nOffY 7 = 1 from by decide]; exact hY1)
      (distSq_toward_lt h w hw i _ _ hxj 1 1 hX1 hY1
        (fun _ => rfl) (fun hp => absurd hp (not_lt.mpr hXneg.le))
        (fun h0 => absurd h0 hXneg.ne)
        (fun _ => rfl) (fun hp => absurd hp (not_lt.mpr hYneg.le))
        (fun h0 => absurd h0 hYneg.ne) hne) ?_⟩
    intro hfix
    have hmem : i ∈ (Finset.Ico 1 (h - 1)).image (fun yy => yy * w - 1) := hfix
    have := mod_of_mem_mul_sub_one (h - 1) w i hw hmem
    omega
  -- xi < px, yi = py : step (0, 1), band row 4
  · have hXneg : Xc w i < 0 := by unfold Xc; omega
    have hY0 : Yc h w i = 0 := by unfold Yc; omega
    have hX1 : ((i % w + 1 : ℕ) : ℤ) = (i % w : ℕ) + 1 := by push_cast; ring
    have hY1 : ((i / w : ℕ) : ℤ) = (i / w : ℕ) + 0 := by push_cast; ring
    have hxj : i % w + 1 < w := by omega
    refine ⟨4, cosWeight_pos_core h w i 4 (i % w + 1) (i / w) hxj (by omega)
      (by rw [show nOffX 4 = 1 from by decide]; exact hX1)
      (by rw [show nOffY 4 = 0 from by decide]; exact hY1)
      (distSq_toward_lt h w hw i _ _ hxj 1 0 hX1 hY1
        (fun _ => rfl) (fun hp => absurd hp (not_lt.mpr hXneg.le))
        (fun h0 => absurd h0 hXneg.ne)
        (fun hp => absurd hp (by rw [hY0]; exact lt_irrefl 0))
        (fun hp => absurd hp (by rw [hY0]; exact lt_irrefl 0))
        (fun _ => rfl) hne) ?_⟩
    intro hfix
    have hmem : i ∈ (Finset.Ico 1 h).image (fun yy => yy * w - 1) := hfix
    have := mod_of_mem_mul_sub_one h w i hw hmem
    omega
  -- xi < px, yi > py : step (-1, 1), band row 2
  · have hXneg : Xc w i < 0 := by unfold Xc; omega
    have hYpos : 0 < Yc h w i := by unfold Yc; omega
    have hyi1 : 1 ≤ i / w := by omega
    have hX1 : ((i % w + 1 : ℕ) : ℤ) = (i % w : ℕ) + 1 := by push_cast; ring
    have hY1 : ((i / w - 1 : ℕ) : ℤ) = (i / w : ℕ) + (-1) := by
      push_cast [Nat.cast_sub hyi1]
      ring
    have hxj : i % w + 1 < w := by omega
    refine ⟨2, cosWeight_pos_core h w i 2 (i % w + 1) (i / w - 1) hxj (by omega)
      (by rw [show nOffX 2 = 1 from by decide]; exact hX1)
      (by rw [show nOffY 2 = -1 from by decide]; exact hY1)
      (distSq_toward_lt h w hw i _ _ hxj 1 (-1) hX1 hY1
        (fun _ => rfl) (fun hp => absurd hp (not_lt.mpr hXneg.le))
        (fun h0 => absurd h0 hXneg.ne)
        (fun hp => absurd hp (not_lt.mpr hYpos.le)) (fun _ => rfl)
        (fun h0 => absurd h0 (ne_of_gt hYpos)) hne) ?_⟩
    intro hfix
    have hmem : i = h * w - 1 ∨
        i ∈ (Finset.Ico 1 h).image (fun yy => yy * w - 1) := hfix
    rcases hmem with hlast | hmem
    · subst hlast
      have := last_mod h w hh hw
      omega
    · have := mod_of_mem_mul_sub_one h w i hw hmem
      omega
  -- xi = px, yi < py : step (1, 0), band row 6 (no fix-ups)
  · have hX0 : Xc w i = 0 := by unfold Xc; omega
    have hYneg : Yc h w i < 0 := by unfold Yc; omega
    have hX1 : ((i % w : ℕ) : ℤ) = (i % w : ℕ) + 0 := by push_cast; ring
    have hY1 : ((i / w + 1 : ℕ) : ℤ) = (i / w : ℕ) + 1 := by push_cast; ring
    refine ⟨6, cosWeight_pos_core h w i 6 (i % w) (i / w + 1)
      (Nat.mod_lt _ (by omega)) (by omega)
      (by rw [show nOffX 6 = 0 from by decide]; exact hX1)
      (by rw [show nOffY 6 = 1 from by decide]; exact hY1)
      (distSq_toward_lt h w hw i _ _ (Nat.mod_lt _ (by omega)) 0 1 hX1 hY1
        (fun hp => absurd hp (by rw [hX0]; exact lt_irrefl 0))
        (fun hp => absurd hp (by rw [hX0]; exact lt_irrefl 0))
        (fun _ => rfl)
        (fun _ => rfl) (fun hp => absurd hp (not_lt.mpr hYneg.le))
        (fun h0 => absurd h0 hYneg.ne) hne) ?_⟩
    intro hfix
    exact (hfix : False)
  -- xi = px, yi = py : the peak pixel, excluded
  · exact absurd ⟨by unfold Xc; omega, by unfold Yc; omega⟩ hne
  -- xi = px, yi > py : step (-1, 0), band row 1 (no fix-ups)
  · have hX0 : Xc w i = 0 := by unfold Xc; omega
    have hYpos : 0 < Yc h w i := by unfold Yc; omega
    have hyi1 : 1 ≤ i / w := by omega
    have hX1 : ((i % w : ℕ) : ℤ) = (i % w : ℕ) + 0 := by push_cast; ring
    have hY1 : ((i / w - 1 : ℕ) : ℤ) = (i / w : ℕ) + (-1) := by
      push_cast [Nat.cast_sub hyi1]
      ring
    refine ⟨1, cosWeight_pos_core h w i 1 (i % w) (i / w - 1)
      (Nat.mod_lt _ (by omega)) (by omega)
      (by rw [show nOffX 1 = 0 from by decide]; exact hX1)
      (by rw [show nOffY 1 = -1 from by decide]; exact hY1)
      (distSq_toward_lt h w hw i _ _ (Nat.mod_lt _ (by omega)) 0 (-1) hX1 hY1
        (fun hp => absurd hp (by rw [hX0]; exact lt_irrefl 0))
        (fun hp => absurd hp (by rw [hX0]; exact lt_irrefl 0))
        (fun _ => rfl)
        (fun hp => absurd hp (not_lt.mpr hYpos.le)) (fun _ => rfl)
        (fun h0 => absurd h0 (ne_of_gt hYpos)) hne) ?_⟩
    intro hfix
    exact (hfix : False)
  -- xi > px, yi < py : step (1, -1), band row 5
  · have hXpos : 0 < Xc w i := by unfold Xc; omega
    have hYneg : Yc h w i < 0 := by unfold Yc; omega
    have hxi1 : 1 ≤ i % w := by omega
    have hX1 : ((i % w - 1 : ℕ) : ℤ) = (i % w : ℕ) + (-1) := by
      push_cast [Nat.cast_sub hxi1]
      ring
    have hY1 : ((i / w + 1 : ℕ) : ℤ) = (i / w : ℕ) + 1 := by push_cast; ring
    have hxj : i % w - 1 < w := by
      have := Nat.mod_lt i (show 0 < w by omega)
      omega
    refine ⟨5, cosWeight_pos_core h w i 5 (i % w - 1) (i / w + 1) hxj (by omega)
      (by rw [show nOffX 5 = -1 from by decide]; exact hX1)
      (by rw [show nOffY 5 = 1 from by decide]; exact hY1)
      (distSq_toward_lt h w hw i _ _ hxj (-1) 1 hX1 hY1
        (fun hp => absurd hp (not_lt.mpr hXpos.le)) (fun _ => rfl)
        (fun h0 => absurd h0 (ne_of_gt hXpos))
        (fun _ => rfl) (fun hp => absurd hp (not_lt.mpr hYneg.le))
        (fun h0 => absurd h0 hYneg.ne) hne) ?_⟩
    intro hfix
    have hmem : i ∈ (Finset.range h).image (· * w) := hfix
    have := mod_of_mem_range_mul h w i hmem
    omega
  -- xi > px, yi = py : step (0, -1), band row 3
  · have hXpos : 0 < Xc w i := by unfold Xc; omega
    have hY0 : Yc h w i = 0 := by unfold Yc; omega
    have hxi1 : 1 ≤ i % w := by omega
    have hX1 : ((i % w - 1 : ℕ) : ℤ) = (i % w : ℕ) + (-1) := by
      push_cast [Nat.cast_sub hxi1]
      ring
    have hY1 : ((i / w : ℕ) : ℤ) = (i / w : ℕ) + 0 := by push_cast; ring
    have hxj : i % w - 1 < w := by
      have := Nat.mod_lt i (show 0 < w by omega)
      omega
    refine ⟨3, cosWeight_pos_core h w i 3 (i % w - 1) (i / w) hxj (by omega)
      (by rw [show nOffX 3 = -1 from by decide]; exact hX1)
      (by rw [show nOffY 3 = 0 from by decide]; exact hY1)
      (distSq_toward_lt h w hw i _ _ hxj (-1) 0 hX1 hY1
        (fun hp => absurd hp (not_lt.mpr hXpos.le)) (fun _ => rfl)
        (fun h0 => absurd h0 (ne_of_gt hXpos))
        (fun hp => absurd hp (by rw [hY0]; exact lt_irrefl 0))
        (fun hp => absurd hp (by rw [hY0]; exact lt_irrefl 0))
        (fun _ => rfl) hne) ?_⟩
    intro hfix
    have hmem : i ∈ (Finset.Ico 1 h).image (· * w) := hfix
    have := mod_of_mem_mul h w i hmem
    omega
  -- xi > px, yi > py : step (-1, -1), band row 0
  · have hXpos : 0 < Xc w i := by unfold Xc; omega
    have hYpos : 0 < Yc h w i := by unfold Yc; omega
    have hxi1 : 1 ≤ i % w := by omega
    have hyi1 : 1 ≤ i / w := by omega
    have hX1 : ((i % w - 1 : ℕ) : ℤ) = (i % w : ℕ) + (-1) := by
      push_cast [Nat.cast_sub hxi1]
      ring
    have hY1 : ((i / w - 1 : ℕ) : ℤ) = (i / w : ℕ) + (-1) := by
      push_cast [Nat.cast_sub hyi1]
      ring
    have hxj : i % w - 1 < w := by
      have := Nat.mod_lt i (show 0 < w by omega)
      omega
    refine ⟨0, cosWeight_pos_core h w i 0 (i % w - 1) (i / w - 1) hxj (by omega)
      (by rw [show nOffX 0 = -1 from by decide]; exact hX1)
      (by rw [show nOffY 0 = -1 from by decide]; exact hY1)
      (distSq_toward_lt h w hw i _ _ hxj (-1) (-1) hX1 hY1
        (fun hp => absurd hp (not_lt.mpr hXpos.le)) (fun _ => rfl)
        (fun h0 => absurd h0 (ne_of_gt hXpos))
        (fun hp => absurd hp (not_lt.mpr hYpos.le)) (fun _ => rfl)
        (fun h0 => absurd h0 (ne_of_gt hYpos)) hne) ?_⟩
    intro hfix
    have hmem : i ∈ (Finset.Ico 1 h).image (· * w) := hfix
    have := mod_of_mem_mul h w i hmem
    omega

/-! Row values of the assembled operator. -/

lemma cosWeight_eq_zero_of_masked (h w : ℕ) (n : Fin 8) (i : ℕ)
    (hm : masked h w n i) : cosWeight h w n i = 0 := by
  unfold cosWeight
  rw [if_pos (Or.inr hm)]

lemma nb_lt (h w : ℕ) (n : Fin 8) (i : ℕ) (hbv : bandValid h w n i) :
    nb w n i < h * w := by
  have h1 := hbv.1
  have h2 := hbv.2
  unfold nb
  omega

/-- The peak row of the operator evaluates to `+x[peak]` (the weights
of the peak column are all zero and the diagonal entry is `-1`,
subtracted). -/
lemma monotonicApply_peak (h w : ℕ) (hw : 1 ≤ w) (useNearest : Bool)
    (x : ℕ → ℚ) :
    monotonicApply h w useNearest x (peakIdx h w) = x (peakIdx h w) := by
  unfold monotonicApply
  rw [if_pos rfl]
  have hz : ∀ n : Fin 8,
      (if bandValid h w n (peakIdx h w) then
        cosNorm h w useNearest n (peakIdx h w) * x (nb w n (peakIdx h w))
      else 0) = 0 := by
    intro n
    have hcw := cosWeight_peak h w n hw
    by_cases hbv : bandValid h w n (peakIdx h w)
    · rw [if_pos hbv]
      have hcn : cosNorm h w useNearest n (peakIdx h w) = 0 := by
        cases useNearest with
        | true =>
          simp only [cosNorm, if_pos]
          unfold cosNormNearest
          rw [if_pos rfl]
        | false =>
          simp only [cosNorm, Bool.false_eq_true, if_neg, if_false]
          unfold cosNormSoft
          by_cases hm : masked h w n (peakIdx h w)
          · rw [if_pos hm]
          · rw [if_neg hm, hcw, zero_div]
      rw [hcn, zero_mul]
    · rw [if_neg hbv]
  rw [Finset.sum_congr rfl (fun n _ => hz n)]
  simp

lemma cosNormSoft_eq_div (h w : ℕ) (n : Fin 8) (i : ℕ)
    (hnz : normalizeCol h w i ≠ 0) :
    cosNormSoft h w n i = cosWeight h w n i / normalizeCol h w i := by
  unfold cosNormSoft
  rw [if_neg hnz]
  by_cases hm : masked h w n i
  · rw [if_pos hm, cosWeight_eq_zero_of_masked h w n i hm, zero_div]
  · rw [if_neg hm]

end RadMono

/-- C8 (amended): for every shape (with at least one row and column and
enough pixels for the 8 band offsets to fit, as `scipy.sparse.diags`
requires), in either weight mode, applying the radial-monotonicity
operator to a non-negative radially monotonic flattened image yields a
vector all of whose entries are **greater than or equal to** 0 (the
operator computes weighted closer-neighbor fluxes minus the pixel flux,
so monotone profiles satisfy `op·x ≥ 0`; this is why the attached
projection is `prox_plus`, "positive gradients"). -/
theorem c8_radial_monotonic_nonneg (h w : ℕ) (useNearest : Bool) (x : ℕ → ℚ)
    (hh : 1 ≤ h) (hw : 1 ≤ w) (_hsz : w + 1 < h * w)
    (hnn : ∀ i < h * w, 0 ≤ x i)
    (hmono : RadMono.RadiallyMonotonic h w x)
    (i : ℕ) (hi : i < h * w) :
    0 ≤ RadMono.monotonicApply h w useNearest x i := by
  by_cases hpeak : i = RadMono.peakIdx h w
  · rw [hpeak, RadMono.monotonicApply_peak h w hw useNearest x]
    exact hnn _ (RadMono.peakIdx_lt h w hh hw)
  · obtain ⟨n₀, hn₀⟩ := RadMono.exists_pos_cosWeight h w hh hw i hi hpeak
    unfold RadMono.monotonicApply
    rw [if_neg hpeak, one_mul]
    cases useNearest with
    | true =>
      -- nearest mode: the argmax entry carries weight 1 and is a valid
      -- strictly closer neighbor
      set F : Fin 8 → ℚ := fun m => RadMono.cosWeight h w m i with hF
      set a : Fin 8 := RadMono.argmax8 F with ha
      have haF : 0 < F a := lt_of_lt_of_le hn₀ (RadMono.argmax8_ge F n₀)
      obtain ⟨hbva, hcla, _⟩ :=
        RadMono.closer_of_cosWeight_ne h w a i (ne_of_gt haF)
      have hsum : (∑ n : Fin 8,
          if RadMono.bandValid h w n i then
            RadMono.cosNorm h w true n i * x (RadMono.nb w n i)
          else 0) = x (RadMono.nb w a i) := by
        rw [Finset.sum_eq_single a]
        · rw [if_pos hbva]
          simp only [RadMono.cosNorm, if_pos]
          unfold RadMono.cosNormNearest
          rw [if_neg hpeak, if_pos rfl, one_mul]
        · intro n _ hna
          by_cases hbv : RadMono.bandValid h w n i
          · rw [if_pos hbv]
            simp only [RadMono.cosNorm, if_pos]
            unfold RadMono.cosNormNearest
            rw [if_neg hpeak, if_neg hna, zero_mul]
          · rw [if_neg hbv]
        · intro hmem
          exact absurd (Finset.mem_univ a) hmem
      rw [hsum]
      have hle : x i ≤ x (RadMono.nb w a i) :=
        hmono i hi (RadMono.nb w a i) (RadMono.nb_lt h w a i hbva)
          (le_of_lt hcla)
      linarith
    | false =>
      -- soft mode: weights are nonnegative, supported on strictly
      -- closer neighbors, and sum to 1
      set F : Fin 8 → ℚ := fun m => RadMono.cosWeight h w m i with hF
      have hFnn : ∀ n : Fin 8, 0 ≤ F n := fun n => RadMono.cosWeight_nonneg h w n i
      have hnorm : 0 < RadMono.normalizeCol h w i := by
        unfold RadMono.normalizeCol
        calc (0:ℚ) < F n₀ := hn₀
          _ ≤ ∑ n : Fin 8, F n :=
            Finset.single_le_sum (fun n _ => hFnn n) (Finset.mem_univ n₀)
      have hsoft : ∀ n : Fin 8, RadMono.cosNorm h w false n i =
          F n / RadMono.normalizeCol h w i := fun n =>
        RadMono.cosNormSoft_eq_div h w n i (ne_of_gt hnorm)
      have hstep : ∀ n : Fin 8,
          (if RadMono.bandValid h w n i then
            F n / RadMono.normalizeCol h w i * x i else 0) ≤
          (if RadMono.bandValid h w n i then
            RadMono.cosNorm h w false n i * x (RadMono.nb w n i) else 0) := by
        intro n
        by_cases hbv : RadMono.bandValid h w n i
        · rw [if_pos hbv, if_pos hbv, hsoft n]
          by_cases hFz : F n = 0
          · rw [hFz]
            simp
          · have hcl := (RadMono.closer_of_cosWeight_ne h w n i hFz).2.1
            have hxle : x i ≤ x (RadMono.nb w n i) :=
              hmono i hi (RadMono.nb w n i) (RadMono.nb_lt h w n i hbv)
                (le_of_lt hcl)
            have hcoef : 0 ≤ F n / RadMono.normalizeCol h w i :=
              div_nonneg (hFnn n) (le_of_lt hnorm)
            exact mul_le_mul_of_nonneg_left hxle hcoef
        · rw [if_neg hbv, if_neg hbv]
      have hlow : (∑ n : Fin 8,
          if RadMono.bandValid h w n i then
            F n / RadMono.normalizeCol h w i * x i else 0) = x i := by
        have hterm : ∀ n : Fin 8,
            (if RadMono.bandValid h w n i then
              F n / RadMono.normalizeCol h w i * x i else 0) =
            F n / RadMono.normalizeCol h w i * x i := by
          intro n
          by_cases hbv : RadMono.bandValid h w n i
          · rw [if_pos hbv]
          · rw [if_neg hbv]
            have hFz : F n = 0 :=
              RadMono.cosWeight_eq_zero_of_masked h w n i (Or.inl hbv)
            rw [hFz, zero_div, zero_mul]
        rw [Finset.sum_congr rfl (fun n _ => hterm n)]
        rw [← Finset.sum_mul, ← Finset.sum_div]
        have : (∑ n : Fin 8, F n) = RadMono.normalizeCol h w i := rfl
        rw [this, div_self (ne_of_gt hnorm), one_mul]
      have hcmp := @Finset.sum_le_sum (Fin 8) ℚ _
        (fun n => if RadMono.bandValid h w n i then
          F n / RadMono.normalizeCol h w i * x i else 0)
        (fun n => if RadMono.bandValid h w n i then
          RadMono.cosNorm h w false n i * x (RadMono.nb w n i) else 0)
        Finset.univ (fun n _ => hstep n)
      rw [hlow] at hcmp
      linarith

/-- The concrete 3×3 radially monotonic image used below: 2 at the
central peak, 1 elsewhere. -/
def exMono : ℕ → ℚ := fun i => if i = 4 then 2 else 1

lemma exMono_monotonic : RadMono.RadiallyMonotonic 3 3 exMono := by
  intro i hi j hj hd
  by_cases hi4 : i = 4
  · subst hi4
    by_cases hj4 : j = 4
    · subst hj4
      exact le_refl _
    · exfalso
      have hz : RadMono.distSq 3 3 4 = 0 := by
        norm_num [RadMono.distSq, RadMono.Xc, RadMono.Yc, RadMono.pxc,
          RadMono.pyc]
      rw [hz] at hd
      interval_cases j <;>
        simp_all [RadMono.distSq, RadMono.Xc, RadMono.Yc, RadMono.pxc,
          RadMono.pyc]
  · have h1 : exMono i = 1 := by simp [exMono, hi4]
    rw [h1]
    unfold exMono
    by_cases hj4 : j = 4 <;> simp [hj4]

/-- C8 counterexample: the operator applied to a non-negative radially
monotonic 3×3 image has a strictly positive entry (the peak row equals
`+x[peak] = 2`), so the entries are not all ≤ 0 as claimed. -/
theorem c8_counterexample :
    RadMono.RadiallyMonotonic 3 3 exMono ∧ (4:ℕ) < 3 * 3 ∧
      0 < RadMono.monotonicApply 3 3 true exMono 4 := by
  refine ⟨exMono_monotonic, by norm_num, ?_⟩
  have hpk : RadMono.peakIdx 3 3 = 4 := by
    norm_num [RadMono.peakIdx, RadMono.pxc, RadMono.pyc]
  have := RadMono.monotonicApply_peak 3 3 (by norm_num) true exMono
  rw [hpk] at this
  rw [this]
  norm_num [exMono]

/-- C8 witness: the amended nonnegativity theorem applied to the 3×3
monotone image in soft mode at pixel 0. -/
theorem c8_radial_monotonic_nonneg_witness :
    ((1:ℕ) ≤ 3 ∧ 3 + 1 < 3 * 3) ∧
      0 ≤ RadMono.monotonicApply 3 3 false exMono 0 :=
  ⟨⟨by norm_num, by norm_num⟩,
    c8_radial_monotonic_nonneg 3 3 false exMono (by norm_num) (by norm_num)
      (by norm_num)
      (fun i _ => by by_cases h4 : i = 4 <;> simp [exMono, h4])
      exMono_monotonic 0 (by norm_num)⟩

end Scarlet
